import Mathlib

/-!
Verification of the pixel-renderer rasterization library.

This file shallowly embeds the library's drawing and rendering algorithms:
the Bresenham line generator, the Wu antialiased line generator, the
multi-segment path builder, the midpoint circle generator, the camera canvas
computation, the triangle rasterizer's fill and wireframe passes and the
pixel compositors.  `f32` values are modelled as exact rationals (`ℚ`);
where IEEE special values (infinities, NaN) are reachable (the depth
pipeline), floats are modelled by the four-constructor type `RF`.  Machine
integers (`i32`, `u8`, `u32`, `usize`) are modelled as `ℤ`/`ℕ`; indexing that
panics in Rust is modelled with `Option`.
-/

namespace PixelRenderer

/-! ### Rust float primitives on exact rationals

`f32::trunc` rounds toward zero, `f32::fract` is `x - x.trunc()`, and a
saturating `as u8` cast truncates toward zero and clamps to `[0, 255]`.
Multiplying an `f32` by `256` (a power of two) and the comparisons below are
exact in IEEE arithmetic, so the rational model is faithful for finite
inputs. -/

/-- Rust `f32::trunc`: round toward zero. -/
def rustTrunc (q : ℚ) : ℤ := if 0 ≤ q then ⌊q⌋ else ⌈q⌉

/-- Rust `f32::fract`: `x - x.trunc()`. -/
def rustFract (q : ℚ) : ℚ := q - rustTrunc q

/-- Rust saturating cast `as u8` from a float: truncate toward zero and
clamp to `[0, 255]`. -/
def f32AsU8 (q : ℚ) : ℕ := (min 255 (rustTrunc q)).toNat

/-- Rust `f32::round`: round half away from zero. -/
def rustRound (q : ℚ) : ℤ := if 0 ≤ q then ⌊q + 1/2⌋ else -⌊-q + 1/2⌋

@[simp] lemma rustTrunc_intCast (n : ℤ) : rustTrunc (n : ℚ) = n := by
  unfold rustTrunc
  split <;> simp

@[simp] lemma rustFract_intCast (n : ℤ) : rustFract (n : ℚ) = 0 := by
  simp [rustFract]

lemma rustTrunc_eq_floor {q : ℚ} (h : 0 ≤ q) : rustTrunc q = ⌊q⌋ := by
  simp [rustTrunc, h]

/-! ### `alpha_f32_to_u8` (src/drawing.rs, lines 382-384)

```rust
fn alpha_f32_to_u8(f: f32) -> u8 {
    (if f >= 1f32 { 255f32 } else { f * 256f32 }) as u8
}
``` -/

/-- Opacity quantization from src/drawing.rs: `255` for `f ≥ 1`, otherwise
the saturating `as u8` cast of `f * 256`. -/
def alpha_f32_to_u8 (f : ℚ) : ℕ :=
  if 1 ≤ f then 255 else f32AsU8 (f * 256)

/-- C7 (counterexample): at `f = 3/1024` the code truncates `f·256 = 3/4`
to `0`, while the claimed `round(f·256)` (truncated to 8 bits) is `1`. -/
theorem alpha_round_claim_cex :
    (alpha_f32_to_u8 (3/1024) : ℤ) ≠ round ((3/1024 : ℚ) * 256) % 256 := by
  have h1 : alpha_f32_to_u8 (3/1024) = 0 := by
    norm_num [alpha_f32_to_u8, f32AsU8, rustTrunc]
  have h2 : round ((3/1024 : ℚ) * 256) = 1 := by
    norm_num [round_eq]
  rw [h1, h2]
  decide

/-- C7 (amended): `alpha_f32_to_u8 f` is `255` for `f ≥ 1`; for
`0 ≤ f < 1` it is `⌊f·256⌋` (truncation toward zero, always below 256);
for `f < 0` the saturating cast clamps to `0`. -/
theorem alpha_f32_to_u8_spec (f : ℚ) :
    (1 ≤ f → alpha_f32_to_u8 f = 255) ∧
    (0 ≤ f → f < 1 → alpha_f32_to_u8 f = (⌊f * 256⌋).toNat ∧
      (⌊f * 256⌋).toNat < 256) ∧
    (f < 0 → alpha_f32_to_u8 f = 0) := by
  refine ⟨fun h => by simp [alpha_f32_to_u8, h], fun h0 h1 => ?_, fun hneg => ?_⟩
  · have hle : ¬ (1 : ℚ) ≤ f := not_le.2 h1
    have h256 : (0 : ℚ) ≤ f * 256 := by positivity
    have hfl : ⌊f * 256⌋ ≤ 255 := by
      have h : f * 256 < 256 := by linarith
      have h2 : ⌊f * 256⌋ < 256 := by
        have := Int.floor_le (f * 256)
        have : (⌊f * 256⌋ : ℚ) < 256 := lt_of_le_of_lt this h
        exact_mod_cast this
      omega
    constructor
    · simp only [alpha_f32_to_u8, if_neg hle, f32AsU8, rustTrunc_eq_floor h256]
      rw [min_eq_right hfl]
    · omega
  · have hle : ¬ (1 : ℚ) ≤ f := by linarith
    have h256 : f * 256 < 0 := by nlinarith
    have hnn : ¬ (0 : ℚ) ≤ f * 256 := not_le.2 h256
    have hceil : ⌈f * 256⌉ ≤ 0 := by
      have : ⌈f * 256⌉ ≤ ⌈(0 : ℚ)⌉ := Int.ceil_le_ceil h256.le
      simpa using this
    simp only [alpha_f32_to_u8, if_neg hle, f32AsU8, rustTrunc, if_neg hnn]
    omega

/-- Witness for `alpha_f32_to_u8_spec` at `f = 1/2`. -/
theorem alpha_f32_to_u8_spec_witness :
    alpha_f32_to_u8 (1/2) = (⌊(1/2 : ℚ) * 256⌋).toNat :=
  ((alpha_f32_to_u8_spec (1/2)).2.1 (by norm_num) (by norm_num)).1

/-! ### Camera canvas (src/camera.rs, lines 77-107) -/

/-- Fit strategy of the camera (src/camera.rs). -/
inductive FitStrategy
  | fill
  | overscan
deriving DecidableEq, Repr

/-- Derived canvas extent in camera-space units (src/camera.rs). -/
structure Canvas where
  width : ℚ
  height : ℚ
deriving DecidableEq, Repr

/-- `Canvas::from_camera_parameters` from src/camera.rs: aperture is a pair
of `u8`, output dimensions a pair of `u32`, all float math modelled on `ℚ`. -/
def Canvas.from_camera_parameters (aperture : ℕ × ℕ) (focal_length near : ℚ)
    (fit : FitStrategy) (out : ℕ × ℕ) : Canvas :=
  let apAspect : ℚ := (aperture.1 : ℚ) / (aperture.2 : ℚ)
  let outAspect : ℚ := (out.1 : ℚ) / (out.2 : ℚ)
  let scale : ℚ × ℚ :=
    match fit with
    | .fill =>
        if outAspect < apAspect then (outAspect / apAspect, 1)
        else (1, apAspect / outAspect)
    | .overscan =>
        if outAspect < apAspect then (1, apAspect / outAspect)
        else (outAspect / apAspect, 1)
  let width := 2 * ((aperture.1 : ℚ) / 2 / focal_length) * near * scale.1
  let height := width / apAspect * scale.2
  ⟨width, height⟩

/-- C5 (counterexample): with aperture `(35,24)`, focal length `10`,
near `1` and square output `(512,512)` the aperture aspect exceeds the
output aspect, yet under `Fill` the canvas aspect ratio is `35/24`
(the aperture aspect), not the output aspect `1` claimed by the spec. -/
theorem canvas_fill_aspect_cex :
    (512 : ℚ) / 512 < (35 : ℚ) / 24 ∧
    (Canvas.from_camera_parameters (35, 24) 10 1 .fill (512, 512)).width /
      (Canvas.from_camera_parameters (35, 24) 10 1 .fill (512, 512)).height ≠
      (512 : ℚ) / 512 := by
  constructor
  · norm_num
  · norm_num [Canvas.from_camera_parameters]

/-- C5 (amended): when `apertureAR > outputAR`, `Fill` scales by
`(outputAR/apertureAR, 1)` and `Overscan` by `(1, apertureAR/outputAR)`;
the canvas width is `2·(aperture.w/2/focal)·near·xScale` and its height is
`width/apertureAR·yScale`.  Consequently the `Fill` canvas keeps the
aperture aspect ratio and it is the `Overscan` canvas whose aspect ratio
equals the output aspect ratio. -/
theorem canvas_fit_scale_spec (a0 a1 : ℕ) (focal near : ℚ) (ow oh : ℕ)
    (ha0 : 0 < a0) (ha1 : 0 < a1) (hf : 0 < focal) (hn : 0 < near)
    (how : 0 < ow) (hoh : 0 < oh)
    (hgt : (ow : ℚ) / (oh : ℚ) < (a0 : ℚ) / (a1 : ℚ)) :
    (Canvas.from_camera_parameters (a0, a1) focal near .fill (ow, oh) =
      ⟨2 * ((a0 : ℚ) / 2 / focal) * near * (((ow : ℚ)/oh) / ((a0 : ℚ)/a1)),
       2 * ((a0 : ℚ) / 2 / focal) * near * (((ow : ℚ)/oh) / ((a0 : ℚ)/a1)) /
         ((a0 : ℚ)/a1) * 1⟩) ∧
    (Canvas.from_camera_parameters (a0, a1) focal near .overscan (ow, oh) =
      ⟨2 * ((a0 : ℚ) / 2 / focal) * near * 1,
       2 * ((a0 : ℚ) / 2 / focal) * near * 1 / ((a0 : ℚ)/a1) *
         (((a0 : ℚ)/a1) / ((ow : ℚ)/oh))⟩) ∧
    (Canvas.from_camera_parameters (a0, a1) focal near .fill (ow, oh)).width /
      (Canvas.from_camera_parameters (a0, a1) focal near .fill (ow, oh)).height
      = (a0 : ℚ) / (a1 : ℚ) ∧
    (Canvas.from_camera_parameters (a0, a1) focal near .overscan (ow, oh)).width /
      (Canvas.from_camera_parameters (a0, a1) focal near
        .overscan (ow, oh)).height = (ow : ℚ) / (oh : ℚ) := by
  have ha0' : ((a0 : ℚ)) ≠ 0 := Nat.cast_ne_zero.2 ha0.ne'
  have ha1' : ((a1 : ℚ)) ≠ 0 := Nat.cast_ne_zero.2 ha1.ne'
  have how' : ((ow : ℚ)) ≠ 0 := Nat.cast_ne_zero.2 how.ne'
  have hoh' : ((oh : ℚ)) ≠ 0 := Nat.cast_ne_zero.2 hoh.ne'
  have hf' : focal ≠ 0 := hf.ne'
  have hn' : near ≠ 0 := hn.ne'
  refine ⟨?_, ?_, ?_, ?_⟩
  · simp only [Canvas.from_camera_parameters, if_pos hgt]
  · simp only [Canvas.from_camera_parameters, if_pos hgt]
  · simp only [Canvas.from_camera_parameters, if_pos hgt]
    field_simp
    ring
  · simp only [Canvas.from_camera_parameters, if_pos hgt]
    field_simp
    ring

/-- Witness for `canvas_fit_scale_spec` with the default 35×24 aperture. -/
theorem canvas_fit_scale_spec_witness :
    (Canvas.from_camera_parameters (35, 24) 10 1 .fill (512, 512)).width /
      (Canvas.from_camera_parameters (35, 24) 10 1 .fill (512, 512)).height
      = (35 : ℚ) / 24 :=
  (canvas_fit_scale_spec 35 24 10 1 512 512 (by norm_num) (by norm_num)
    (by norm_num) (by norm_num) (by norm_num) (by norm_num)
    (by norm_num)).2.2.1

/-! ### Pixels and the path builder (src/drawing.rs) -/

/-- The `Pixel` enum of src/drawing.rs: a fully opaque pixel or an
antialiased pixel with an 8-bit alpha. -/
inductive Pixel
  | normal (x y : ℤ)
  | antiAliased (x y : ℤ) (a : ℕ)
deriving DecidableEq, Repr

/-- `LineBuilder` state (src/drawing.rs, lines 44-50); the type-state
parameters only gate which operations are callable and carry no data. -/
structure LineBuilder where
  path : List (ℤ × ℤ)
  skip_line : List (ℕ × ℕ)
  last_line_beginning : ℕ
deriving DecidableEq, Repr

/-- `LineBuilder::from` on the `NoPoints` state: start the path at `p`. -/
def LineBuilder.fromStart (p : ℤ × ℤ) : LineBuilder :=
  ⟨[p], [], 0⟩

/-- `LineBuilder::to` on the `HasStart`/`HasEnd` states: append `p`,
implicitly drawing a segment from the previous point. -/
def LineBuilder.to (pb : LineBuilder) (p : ℤ × ℤ) : LineBuilder :=
  { pb with path := pb.path ++ [p] }

/-- `LineBuilder::from` on the `HasEnd` state: append `p`, record the
just-finished index pair as a skip pair, and mark `p` as the new subpath
origin. -/
def LineBuilder.fromMove (pb : LineBuilder) (p : ℤ × ℤ) : LineBuilder :=
  ⟨pb.path ++ [p],
   pb.skip_line ++ [(pb.path.length + 1 - 2, pb.path.length + 1 - 1)],
   pb.path.length + 1 - 1⟩

/-- `LineBuilder::close`: append a copy of the current subpath's origin
(`self.path[self.last_line_beginning]`; in-bounds on every reachable
state). -/
def LineBuilder.close (pb : LineBuilder) : LineBuilder :=
  { pb with path := pb.path ++ [pb.path.getD pb.last_line_beginning (0, 0)] }

/-- `LineBuilder::end`: zip the enumerated path with its enumerated tail,
drop every index pair recorded in `skip_line`, and concatenate the line
generator's output for each surviving pair.  The generator is abstracted
as the function `mk` from a segment's endpoints to its emitted pixels. -/
def LineBuilder.endPixels (mk : (ℤ × ℤ) → (ℤ × ℤ) → List Pixel)
    (pb : LineBuilder) : List Pixel :=
  ((pb.path.enum.zip (pb.path.enum.drop 1)).filter
    (fun q => decide ((q.1.1, q.2.1) ∉ pb.skip_line))).flatMap
    (fun q => mk q.1.2 q.2.2)

/-- Consecutive index pairs of a list, starting at index `k`; the direct
recursion equivalent of zipping an enumerated list with its tail. -/
def idxPairs {α : Type} : ℕ → List α → List ((ℕ × α) × (ℕ × α))
  | _, [] => []
  | _, [_] => []
  | k, a :: b :: rest => ((k, a), (k + 1, b)) :: idxPairs (k + 1) (b :: rest)

lemma enumFrom_zip_drop {α : Type} (l : List α) :
    ∀ k, (l.enumFrom k).zip ((l.enumFrom k).drop 1) = idxPairs k l := by
  induction l with
  | nil => intro k; simp [idxPairs]
  | cons a t ih =>
    intro k
    cases t with
    | nil => simp [idxPairs, List.enumFrom]
    | cons b rest =>
      have hd : ((b :: rest).enumFrom (k + 1)).drop 1 = rest.enumFrom (k + 2) := by
        simp [List.enumFrom]
      calc ((a :: b :: rest).enumFrom k).zip
              (((a :: b :: rest).enumFrom k).drop 1)
          = ((k, a) :: (b :: rest).enumFrom (k + 1)).zip
              ((b :: rest).enumFrom (k + 1)) := by simp [List.enumFrom]
        _ = ((k, a), (k + 1, b)) ::
              ((b :: rest).enumFrom (k + 1)).zip (rest.enumFrom (k + 2)) := by
              simp [List.enumFrom]
        _ = ((k, a), (k + 1, b)) ::
              ((b :: rest).enumFrom (k + 1)).zip
                (((b :: rest).enumFrom (k + 1)).drop 1) := by rw [hd]
        _ = idxPairs k (a :: b :: rest) := by rw [ih (k + 1)]; rfl

lemma endPixels_eq_idxPairs (mk : (ℤ × ℤ) → (ℤ × ℤ) → List Pixel)
    (pb : LineBuilder) :
    pb.endPixels mk = ((idxPairs 0 pb.path).filter
      (fun q => decide ((q.1.1, q.2.1) ∉ pb.skip_line))).flatMap
      (fun q => mk q.1.2 q.2.2) := by
  unfold LineBuilder.endPixels
  rw [show pb.path.enum = pb.path.enumFrom 0 from rfl, enumFrom_zip_drop]

lemma idxPairs_append_one {α : Type} (l : List α) (p : α) (hne : l ≠ []) :
    ∀ k, ∃ w, idxPairs k (l ++ [p]) = idxPairs k l ++
      [((k + l.length - 1, w), (k + l.length, p))] := by
  induction l with
  | nil => exact absurd rfl hne
  | cons a t ih =>
    intro k
    cases t with
    | nil => exact ⟨a, by simp [idxPairs]⟩
    | cons b rest =>
      have hbr : (b :: rest) ≠ [] := by simp
      obtain ⟨w, hw⟩ := ih hbr (k + 1)
      refine ⟨w, ?_⟩
      simp only [List.cons_append] at hw
      have e1 : k + 1 + (b :: rest).length = k + (a :: b :: rest).length := by
        simp only [List.length_cons]
        omega
      rw [e1] at hw
      show ((k, a), (k + 1, b)) :: idxPairs (k + 1) (b :: (rest ++ [p])) = _
      rw [hw]
      rfl

lemma idxPairs_snd_lt {α : Type} (l : List α) :
    ∀ k q, q ∈ idxPairs k l → q.2.1 < k + l.length := by
  induction l with
  | nil => intro k q h; simp [idxPairs] at h
  | cons a t ih =>
    intro k q h
    cases t with
    | nil => simp [idxPairs] at h
    | cons b rest =>
      simp only [idxPairs, List.mem_cons] at h
      rcases h with rfl | h
      · show k + 1 < k + (b :: rest).length + 1
        simp only [List.length_cons]
        omega
      · have := ih (k + 1) q h
        simp only [List.length_cons] at this ⊢
        omega

/-- C4: (a) `new().from(A).to(B).to(C).close().end()` emits exactly the
pixels of the generator on `(A,B)`, then `(B,C)`, then `(C,A)`; (b) a
`from(...)` move transition on any nonempty builder records a skip pair
that contributes no pixels: the lowered pixel sequence is unchanged. -/
theorem line_builder_end_spec :
    (∀ (A B C : ℤ × ℤ) (mk : (ℤ × ℤ) → (ℤ × ℤ) → List Pixel),
      LineBuilder.endPixels mk ((((LineBuilder.fromStart A).to B).to C).close) =
        mk A B ++ mk B C ++ mk C A) ∧
    (∀ (pb : LineBuilder) (p : ℤ × ℤ) (mk : (ℤ × ℤ) → (ℤ × ℤ) → List Pixel),
      1 ≤ pb.path.length →
      LineBuilder.endPixels mk (pb.fromMove p) = LineBuilder.endPixels mk pb) := by
  constructor
  · intro A B C mk
    have hpath : ((((LineBuilder.fromStart A).to B).to C).close).path =
        [A, B, C, A] := by
      simp [LineBuilder.fromStart, LineBuilder.to, LineBuilder.close]
    have hskip : ((((LineBuilder.fromStart A).to B).to C).close).skip_line = [] := by
      simp [LineBuilder.fromStart, LineBuilder.to, LineBuilder.close]
    rw [endPixels_eq_idxPairs, hpath, hskip]
    simp [idxPairs]
  · intro pb p mk hlen
    obtain ⟨path, skip, llb⟩ := pb
    cases path with
    | nil => simp at hlen
    | cons a t =>
    rw [endPixels_eq_idxPairs, endPixels_eq_idxPairs]
    have hne : (a :: t) ≠ [] := by simp
    have hpath : ((LineBuilder.mk (a :: t) skip llb).fromMove p).path =
        (a :: t) ++ [p] := rfl
    have hskip : ((LineBuilder.mk (a :: t) skip llb).fromMove p).skip_line =
        skip ++ [((a :: t).length + 1 - 2, (a :: t).length + 1 - 1)] := rfl
    obtain ⟨w, hw⟩ := idxPairs_append_one (a :: t) p hne 0
    rw [hpath, hskip, hw]
    rw [List.filter_append, List.flatMap_append]
    have hmem : ((0 + (a :: t).length - 1, 0 + (a :: t).length) : ℕ × ℕ) ∈
        skip ++ [((a :: t).length + 1 - 2, (a :: t).length + 1 - 1)] := by
      apply List.mem_append_right
      simp only [List.mem_singleton, Prod.mk.injEq, List.length_cons]
      omega
    have hnew : List.filter
        (fun q => decide ((q.1.1, q.2.1) ∉ skip ++
          [((a :: t).length + 1 - 2, (a :: t).length + 1 - 1)]))
        [((0 + (a :: t).length - 1, w), (0 + (a :: t).length, p))] = [] := by
      simp only [List.filter_cons, List.filter_nil]
      rw [if_neg]
      simp only [decide_eq_true_eq, Decidable.not_not]
      exact hmem
    rw [hnew]
    simp only [List.flatMap_nil, List.append_nil]
    have hfil : ∀ q ∈ idxPairs 0 (a :: t),
        (decide ((q.1.1, q.2.1) ∉ skip ++
          [((a :: t).length + 1 - 2, (a :: t).length + 1 - 1)])) =
        (decide ((q.1.1, q.2.1) ∉ skip)) := by
      intro q hq
      have hlt := idxPairs_snd_lt (a :: t) 0 q hq
      simp only [zero_add] at hlt
      simp only [decide_eq_decide, List.mem_append, List.mem_singleton]
      constructor
      · intro h
        exact fun hmem2 => h (Or.inl hmem2)
      · intro h hmem2
        rcases hmem2 with hmem2 | hmem2
        · exact h hmem2
        · have h2 : q.2.1 = (a :: t).length + 1 - 1 := by
            rw [Prod.ext_iff] at hmem2
            exact hmem2.2
          omega
    rw [List.filter_congr hfil]

/-- Witness for `line_builder_end_spec` (part b) on a two-point builder. -/
theorem line_builder_end_spec_witness :
    LineBuilder.endPixels (fun a _ => [Pixel.normal a.1 a.2])
      (((LineBuilder.fromStart (0, 0)).to (1, 1)).fromMove (5, 5)) =
    LineBuilder.endPixels (fun a _ => [Pixel.normal a.1 a.2])
      ((LineBuilder.fromStart (0, 0)).to (1, 1)) :=
  line_builder_end_spec.2 ((LineBuilder.fromStart (0, 0)).to (1, 1)) (5, 5) _
    (by simp [LineBuilder.fromStart, LineBuilder.to])

/-! ### Midpoint circle generator (src/drawing/circle.rs) -/

/-- Colored pixel of the circle module's drawing iteration (`Pixel { x, y,
color }`); the color type is kept abstract. -/
structure CirclePixel (γ : Type) where
  x : ℤ
  y : ℤ
  color : γ
deriving DecidableEq

/-- Iterator state of `BresenhamCircle` (src/drawing/circle.rs). -/
structure BresenhamCircle (γ : Type) where
  center : ℤ × ℤ
  color : γ
  x : ℤ
  y : ℤ
  d : ℤ
  buffer : List (CirclePixel γ)
deriving DecidableEq

/-- `BresenhamCircle::new`: start at `(x = 0, y = r)` with decision
variable `d = 3 - 2r` and an empty buffer. -/
def BresenhamCircle.new {γ : Type} (c : ℤ × ℤ) (r : ℤ) (color : γ) :
    BresenhamCircle γ :=
  ⟨c, color, 0, r, 3 - 2 * r, []⟩

/-- `BresenhamCircle::put_pixels`: the 8 symmetric candidate pixels. -/
def BresenhamCircle.put_pixels {γ : Type} (s : BresenhamCircle γ) :
    List (CirclePixel γ) :=
  [⟨s.center.1 + s.x, s.center.2 + s.y, s.color⟩,
   ⟨s.center.1 - s.x, s.center.2 + s.y, s.color⟩,
   ⟨s.center.1 + s.x, s.center.2 - s.y, s.color⟩,
   ⟨s.center.1 - s.x, s.center.2 - s.y, s.color⟩,
   ⟨s.center.1 + s.y, s.center.2 + s.x, s.color⟩,
   ⟨s.center.1 - s.y, s.center.2 + s.x, s.color⟩,
   ⟨s.center.1 + s.y, s.center.2 - s.x, s.color⟩,
   ⟨s.center.1 - s.y, s.center.2 - s.x, s.color⟩]

/-- One call of `<BresenhamCircle as Iterator>::next`: drain the buffer
from its back (`Vec::pop`), stop when `y < x`, otherwise emit the first
symmetric pixel, buffer the other seven, and advance `x`/`y`/`d`. -/
def circStep {γ : Type} (s : BresenhamCircle γ) :
    Option (CirclePixel γ × BresenhamCircle γ) :=
  match s.buffer.getLast? with
  | some p => some (p, { s with buffer := s.buffer.dropLast })
  | none =>
    if s.y < s.x then none
    else
      let ps := s.put_pixels
      let s1 : BresenhamCircle γ := { s with buffer := s.buffer ++ ps.drop 1 }
      let x1 : ℤ := s1.x + 1
      let s2 : BresenhamCircle γ :=
        if 0 < s1.d then
          { s1 with x := x1, y := s1.y - 1, d := s1.d + 4 * (x1 - (s1.y - 1)) + 10 }
        else
          { s1 with x := x1, d := s1.d + 4 * x1 + 6 }
      some (⟨s.center.1 + s.x, s.center.2 + s.y, s.color⟩, s2)

/-- Run the circle iterator for at most `fuel` calls, collecting the
emitted pixels and the final state. -/
def circRun {γ : Type} : ℕ → BresenhamCircle γ →
    List (CirclePixel γ) × BresenhamCircle γ
  | 0, s => ([], s)
  | n + 1, s =>
    match circStep s with
    | none => ([], s)
    | some (p, s1) =>
      let r := circRun n s1
      (p :: r.1, r.2)

lemma circRun_of_step_none {γ : Type} {s : BresenhamCircle γ}
    (h : circStep s = none) : ∀ n, circRun n s = ([], s) := by
  intro n
  cases n with
  | zero => rfl
  | succ m => simp [circRun, h]

lemma circRun_succ {γ : Type} (n : ℕ) {s s1 : BresenhamCircle γ}
    {p : CirclePixel γ} (h : circStep s = some (p, s1)) :
    circRun (n + 1) s = (p :: (circRun n s1).1, (circRun n s1).2) := by
  simp [circRun, h]

lemma circRun_add {γ : Type} (m n : ℕ) (s : BresenhamCircle γ) :
    circRun (m + n) s =
      ((circRun m s).1 ++ (circRun n (circRun m s).2).1,
       (circRun n (circRun m s).2).2) := by
  induction m generalizing s with
  | zero => simp [circRun]
  | succ k ih =>
    cases hs : circStep s with
    | none =>
      rw [circRun_of_step_none hs, circRun_of_step_none hs]
      simp [circRun_of_step_none hs]
    | some ps =>
      obtain ⟨p, s1⟩ := ps
      have h1 : k + 1 + n = (k + n) + 1 := by omega
      rw [h1, circRun_succ (k + n) hs, circRun_succ k hs, ih s1]
      simp

lemma circRun_succ_eq {γ : Type} (n m : ℕ) (hm : m = n + 1)
    {s s1 : BresenhamCircle γ} {p : CirclePixel γ}
    (h : circStep s = some (p, s1)) :
    circRun m s = (p :: (circRun n s1).1, (circRun n s1).2) :=
  hm ▸ circRun_succ n h

/-- C10: the radius-0 circle iterator yields exactly 8 pixels, all of them
at the center (the coincident symmetric points are emitted without
deduplication), and afterwards `next` returns `None` forever. -/
theorem circle_radius_zero_spec (γ : Type) (c : ℤ × ℤ) (col : γ) (fuel : ℕ)
    (hf : 8 ≤ fuel) :
    (circRun fuel (BresenhamCircle.new c 0 col)).1 =
      List.replicate 8 ⟨c.1, c.2, col⟩ ∧
    circStep (circRun fuel (BresenhamCircle.new c 0 col)).2 = none := by
  obtain ⟨k, rfl⟩ : ∃ k, fuel = 8 + k := ⟨fuel - 8, by omega⟩
  have h1 : circStep (BresenhamCircle.new c 0 col) =
      some (⟨c.1, c.2, col⟩, ⟨c, col, 1, -1, 21,
        [⟨c.1, c.2, col⟩, ⟨c.1, c.2, col⟩, ⟨c.1, c.2, col⟩, ⟨c.1, c.2, col⟩,
         ⟨c.1, c.2, col⟩, ⟨c.1, c.2, col⟩, ⟨c.1, c.2, col⟩]⟩) := by
    simp [circStep, BresenhamCircle.new, BresenhamCircle.put_pixels]
  have hpop : ∀ (b : List (CirclePixel γ)) (q : CirclePixel γ),
      circStep (⟨c, col, 1, -1, 21, b ++ [q]⟩ : BresenhamCircle γ) =
        some (q, ⟨c, col, 1, -1, 21, b⟩) := by
    intro b q
    simp [circStep, List.getLast?_concat, List.dropLast_concat]
  have h2 : circStep (⟨c, col, 1, -1, 21,
      [⟨c.1, c.2, col⟩, ⟨c.1, c.2, col⟩, ⟨c.1, c.2, col⟩, ⟨c.1, c.2, col⟩,
       ⟨c.1, c.2, col⟩, ⟨c.1, c.2, col⟩, ⟨c.1, c.2, col⟩]⟩ : BresenhamCircle γ) =
      some (⟨c.1, c.2, col⟩, ⟨c, col, 1, -1, 21,
        [⟨c.1, c.2, col⟩, ⟨c.1, c.2, col⟩, ⟨c.1, c.2, col⟩, ⟨c.1, c.2, col⟩,
         ⟨c.1, c.2, col⟩, ⟨c.1, c.2, col⟩]⟩) := hpop [⟨c.1, c.2, col⟩, ⟨c.1, c.2, col⟩, ⟨c.1, c.2, col⟩, ⟨c.1, c.2, col⟩, ⟨c.1, c.2, col⟩, ⟨c.1, c.2, col⟩] ⟨c.1, c.2, col⟩
  have h3 : circStep (⟨c, col, 1, -1, 21,
      [⟨c.1, c.2, col⟩, ⟨c.1, c.2, col⟩, ⟨c.1, c.2, col⟩, ⟨c.1, c.2, col⟩,
       ⟨c.1, c.2, col⟩, ⟨c.1, c.2, col⟩]⟩ : BresenhamCircle γ) =
      some (⟨c.1, c.2, col⟩, ⟨c, col, 1, -1, 21,
        [⟨c.1, c.2, col⟩, ⟨c.1, c.2, col⟩, ⟨c.1, c.2, col⟩, ⟨c.1, c.2, col⟩,
         ⟨c.1, c.2, col⟩]⟩) := hpop [⟨c.1, c.2, col⟩, ⟨c.1, c.2, col⟩, ⟨c.1, c.2, col⟩, ⟨c.1, c.2, col⟩, ⟨c.1, c.2, col⟩] ⟨c.1, c.2, col⟩
  have h4 : circStep (⟨c, col, 1, -1, 21,
      [⟨c.1, c.2, col⟩, ⟨c.1, c.2, col⟩, ⟨c.1, c.2, col⟩, ⟨c.1, c.2, col⟩,
       ⟨c.1, c.2, col⟩]⟩ : BresenhamCircle γ) =
      some (⟨c.1, c.2, col⟩, ⟨c, col, 1, -1, 21,
        [⟨c.1, c.2, col⟩, ⟨c.1, c.2, col⟩, ⟨c.1, c.2, col⟩,
         ⟨c.1, c.2, col⟩]⟩) := hpop [⟨c.1, c.2, col⟩, ⟨c.1, c.2, col⟩, ⟨c.1, c.2, col⟩, ⟨c.1, c.2, col⟩] ⟨c.1, c.2, col⟩
  have h5 : circStep (⟨c, col, 1, -1, 21,
      [⟨c.1, c.2, col⟩, ⟨c.1, c.2, col⟩, ⟨c.1, c.2, col⟩, ⟨c.1, c.2, col⟩]⟩ :
        BresenhamCircle γ) =
      some (⟨c.1, c.2, col⟩, ⟨c, col, 1, -1, 21,
        [⟨c.1, c.2, col⟩, ⟨c.1, c.2, col⟩, ⟨c.1, c.2, col⟩]⟩) := hpop [⟨c.1, c.2, col⟩, ⟨c.1, c.2, col⟩, ⟨c.1, c.2, col⟩] ⟨c.1, c.2, col⟩
  have h6 : circStep (⟨c, col, 1, -1, 21,
      [⟨c.1, c.2, col⟩, ⟨c.1, c.2, col⟩, ⟨c.1, c.2, col⟩]⟩ : BresenhamCircle γ) =
      some (⟨c.1, c.2, col⟩, ⟨c, col, 1, -1, 21,
        [⟨c.1, c.2, col⟩, ⟨c.1, c.2, col⟩]⟩) := hpop [⟨c.1, c.2, col⟩, ⟨c.1, c.2, col⟩] ⟨c.1, c.2, col⟩
  have h7 : circStep (⟨c, col, 1, -1, 21,
      [⟨c.1, c.2, col⟩, ⟨c.1, c.2, col⟩]⟩ : BresenhamCircle γ) =
      some (⟨c.1, c.2, col⟩, ⟨c, col, 1, -1, 21, [⟨c.1, c.2, col⟩]⟩) := hpop [⟨c.1, c.2, col⟩] ⟨c.1, c.2, col⟩
  have h8 : circStep (⟨c, col, 1, -1, 21, [⟨c.1, c.2, col⟩]⟩ :
      BresenhamCircle γ) =
      some (⟨c.1, c.2, col⟩, ⟨c, col, 1, -1, 21, []⟩) := by
    have := hpop [] ⟨c.1, c.2, col⟩
    simpa using this
  have hnone : circStep (⟨c, col, 1, -1, 21, []⟩ : BresenhamCircle γ) = none := by
    simp [circStep]
  have hrun8 : circRun 8 (BresenhamCircle.new c 0 col) =
      (List.replicate 8 ⟨c.1, c.2, col⟩, ⟨c, col, 1, -1, 21, []⟩) := by
    rw [circRun_succ_eq 7 8 rfl h1, circRun_succ_eq 6 7 rfl h2,
      circRun_succ_eq 5 6 rfl h3, circRun_succ_eq 4 5 rfl h4,
      circRun_succ_eq 3 4 rfl h5, circRun_succ_eq 2 3 rfl h6,
      circRun_succ_eq 1 2 rfl h7, circRun_succ_eq 0 1 rfl h8]
    rfl
  rw [circRun_add 8 k, hrun8]
  rw [circRun_of_step_none hnone k]
  exact ⟨by simp, hnone⟩

/-- Witness for `circle_radius_zero_spec` at the origin with unit color
and fuel 9. -/
theorem circle_radius_zero_spec_witness :
    (circRun 9 (BresenhamCircle.new ((0 : ℤ), (0 : ℤ)) 0 ())).1 =
      List.replicate 8 ⟨0, 0, ()⟩ :=
  (circle_radius_zero_spec Unit (0, 0) () 9 (by norm_num)).1

/-! ### Bresenham line generator (src/drawing.rs, lines 140-200)

```rust
fn new(from: (i32, i32), to: (i32, i32)) -> Self {
    let dx = (to.0 - from.0).abs();
    let sx = if from.0 < to.0 { 1 } else { -1 };
    let dy = -(to.1 - from.1).abs();
    let sy = if from.1 < to.1 { 1 } else { -1 };
    let error = dx + dy;
    ...
}
fn next(&mut self) -> Option<Pixel> {
    if self.stop { return None; }
    let output = Pixel::Normal { x: self.p.0, y: self.p.1 };
    self.stop = self.p == self.to;
    let e2 = self.error * 2;
    if e2 >= self.dy {
        self.stop = self.p.0 == self.to.0;
        self.error += self.dy;
        self.p.0 += self.sx;
    }
    if e2 <= self.dx {
        self.stop = self.p.1 == self.to.1;
        self.error += self.dx;
        self.p.1 += self.sy;
    }
    Some(output)
}
``` -/

/-- Iterator state of `BresenhamLine` (src/drawing.rs). -/
structure BresenhamLine where
  px : ℤ
  py : ℤ
  tx : ℤ
  ty : ℤ
  dx : ℤ
  dy : ℤ
  sx : ℤ
  sy : ℤ
  error : ℤ
  stop : Bool
deriving DecidableEq, Repr

/-- `BresenhamLine::new` (the `Line` trait impl). -/
def BresenhamLine.new (f t : ℤ × ℤ) : BresenhamLine :=
  ⟨f.1, f.2, t.1, t.2, |t.1 - f.1|, -|t.2 - f.2|,
   if f.1 < t.1 then 1 else -1, if f.2 < t.2 then 1 else -1,
   |t.1 - f.1| + -|t.2 - f.2|, false⟩

/-- One call of `<BresenhamLine as Iterator>::next`.  The two `if`s run in
sequence, each overwriting `stop` as the Rust code does; `e2` is read from
the state before either branch runs. -/
def bresStep (s : BresenhamLine) : Option (Pixel × BresenhamLine) :=
  if s.stop then none
  else
    let out := Pixel.normal s.px s.py
    let st0 : Bool := decide (s.px = s.tx ∧ s.py = s.ty)
    let e2 : ℤ := 2 * s.error
    let s1 : BresenhamLine :=
      if s.dy ≤ e2 then
        { s with stop := decide (s.px = s.tx), error := s.error + s.dy,
                 px := s.px + s.sx }
      else { s with stop := st0 }
    let s2 : BresenhamLine :=
      if e2 ≤ s.dx then
        { s1 with stop := decide (s1.py = s1.ty), error := s1.error + s1.dx,
                  py := s1.py + s1.sy }
      else s1
    some (out, s2)

/-- Run the Bresenham iterator for at most `fuel` calls. -/
def bresRun : ℕ → BresenhamLine → List Pixel × BresenhamLine
  | 0, s => ([], s)
  | n + 1, s =>
    match bresStep s with
    | none => ([], s)
    | some (p, s1) =>
      let r := bresRun n s1
      (p :: r.1, r.2)

/-- Claimed pixel count minus one: `max(|to.x-from.x|, |to.y-from.y|)`. -/
def bresCount (f t : ℤ × ℤ) : ℕ := (max |t.1 - f.1| |t.2 - f.2|).toNat

lemma bresStep_of_stop {s : BresenhamLine} (h : s.stop = true) :
    bresStep s = none := by
  simp [bresStep, h]

lemma bresRun_of_step_none {s : BresenhamLine} (h : bresStep s = none) :
    ∀ n, bresRun n s = ([], s) := by
  intro n
  cases n with
  | zero => rfl
  | succ m => simp [bresRun, h]

lemma bresRun_succ (n : ℕ) {s s1 : BresenhamLine} {p : Pixel}
    (h : bresStep s = some (p, s1)) :
    bresRun (n + 1) s = (p :: (bresRun n s1).1, (bresRun n s1).2) := by
  simp [bresRun, h]

lemma bresRun_add (m n : ℕ) (s : BresenhamLine) :
    bresRun (m + n) s =
      ((bresRun m s).1 ++ (bresRun n (bresRun m s).2).1,
       (bresRun n (bresRun m s).2).2) := by
  induction m generalizing s with
  | zero => simp [bresRun]
  | succ k ih =>
    cases hs : bresStep s with
    | none =>
      rw [bresRun_of_step_none hs, bresRun_of_step_none hs]
      simp [bresRun_of_step_none hs]
    | some ps =>
      obtain ⟨p, s1⟩ := ps
      have h1 : k + 1 + n = (k + n) + 1 := by omega
      rw [h1, bresRun_succ (k + n) hs, bresRun_succ k hs, ih s1]
      simp

/-- Invariant of the Bresenham loop.  `a` and `b` are the absolute x/y
spans of the segment, `rx`/`ry` the remaining distances along each axis,
and the error bound `|2(rx·b − ry·a)| ≤ max a b` confines the trajectory
to the midpoint band of the ideal line. -/
structure BInv (a b sx sy tx ty : ℤ) (s : BresenhamLine) (rx ry : ℤ) :
    Prop where
  hdx : s.dx = a
  hdy : s.dy = -b
  hsx : s.sx = sx
  hsy : s.sy = sy
  htx : s.tx = tx
  hty : s.ty = ty
  hstop : s.stop = false
  hrx0 : 0 ≤ rx
  hrxa : rx ≤ a
  hry0 : 0 ≤ ry
  hryb : ry ≤ b
  hpx : tx - s.px = sx * rx
  hpy : ty - s.py = sy * ry
  herr : s.error = a - b + (rx * b - ry * a)
  hlo : -(max a b) ≤ 2 * (rx * b - ry * a)
  hhi : 2 * (rx * b - ry * a) ≤ max a b
  hsx1 : sx = 1 ∨ sx = -1
  hsy1 : sy = 1 ∨ sy = -1

lemma bres_step_last {a b sx sy tx ty : ℤ} {s : BresenhamLine}
    (inv : BInv a b sx sy tx ty s 0 0) :
    ∃ s2, bresStep s = some (Pixel.normal tx ty, s2) ∧ s2.stop = true := by
  have hpx : s.px = tx := by
    have h := inv.hpx
    rw [mul_zero] at h
    omega
  have hpy : s.py = ty := by
    have h := inv.hpy
    rw [mul_zero] at h
    omega
  unfold bresStep
  rw [inv.hstop, hpx, hpy]
  simp only [Bool.false_eq_true, if_false]
  refine ⟨_, rfl, ?_⟩
  split_ifs with h1 h2 h3 <;> simp [inv.htx, inv.hty]

lemma bres_step_mid {a b sx sy tx ty : ℤ} {s : BresenhamLine} {rx ry : ℤ}
    (inv : BInv a b sx sy tx ty s rx ry) (hpos : 0 < max rx ry) :
    ∃ s2 rx2 ry2, bresStep s = some (Pixel.normal s.px s.py, s2) ∧
      BInv a b sx sy tx ty s2 rx2 ry2 ∧ max rx2 ry2 + 1 = max rx ry := by
  have ha0 : 0 ≤ a := le_trans inv.hrx0 inv.hrxa
  have hb0 : 0 ≤ b := le_trans inv.hry0 inv.hryb
  have hXe : s.dy ≤ 2 * s.error ↔ -b ≤ 2 * (a - b + (rx * b - ry * a)) := by
    rw [inv.hdy, inv.herr]
  have hYe : 2 * s.error ≤ s.dx ↔ 2 * (a - b + (rx * b - ry * a)) ≤ a := by
    rw [inv.herr, inv.hdx]
  rcases le_or_lt b a with hab | hab
  · -- |dx| ≥ |dy|: the x axis drives and advances on every step.
    have hlo := inv.hlo
    have hhi := inv.hhi
    rw [max_eq_left hab] at hlo hhi
    have hryrx : ry ≤ rx := by
      by_contra hcon
      push_neg at hcon
      have h1 : rx + 1 ≤ ry := hcon
      have e1 : rx * b ≤ rx * a := mul_le_mul_of_nonneg_left hab inv.hrx0
      have e2 : (rx + 1) * a ≤ ry * a := mul_le_mul_of_nonneg_right h1 ha0
      have e3 : (rx + 1) * a = rx * a + a := by ring
      have hA0 : a = 0 := le_antisymm (by linarith) ha0
      have hB0 : b = 0 := le_antisymm (by linarith) hb0
      have hx0 : rx = 0 := le_antisymm (by linarith [inv.hrxa]) inv.hrx0
      have hy0 : ry = 0 := le_antisymm (by linarith [inv.hryb]) inv.hry0
      rw [hx0, hy0] at hpos
      simp at hpos
    have hrxpos : 0 < rx := by
      rw [max_eq_left hryrx] at hpos
      exact hpos
    have hcondX : s.dy ≤ 2 * s.error := by
      rw [hXe]
      linarith
    have hpxne : ¬ (s.px = s.tx) := by
      intro h
      have h2 := inv.hpx
      rw [h, inv.htx] at h2
      rcases inv.hsx1 with hs | hs <;> rw [hs] at h2 <;> omega
    by_cases hcondY : 2 * s.error ≤ s.dx
    · -- both axes advance
      have hry1 : 1 ≤ ry := by
        by_contra hcon
        push_neg at hcon
        have hry0' : ry = 0 := le_antisymm (by omega) inv.hry0
        rw [hYe, hry0'] at hcondY
        have e1 : 0 ≤ b * (rx - 1) := mul_nonneg hb0 (by omega)
        have e2 : b * (rx - 1) = rx * b - b := by ring
        have hA0 : a = 0 := le_antisymm (by linarith) ha0
        have : rx ≤ 0 := hA0 ▸ inv.hrxa
        omega
      have hpyne : ¬ (s.py = s.ty) := by
        intro h
        have h2 := inv.hpy
        rw [h, inv.hty] at h2
        rcases inv.hsy1 with hs | hs <;> rw [hs] at h2 <;> omega
      have hXraw := hXe.mp hcondX
      have hYraw := hYe.mp hcondY
      simp only [bresStep, inv.hstop, Bool.false_eq_true, if_false,
        if_pos hcondX, if_pos hcondY]
      refine ⟨_, rx - 1, ry - 1, rfl, ?_, ?_⟩
      · exact {
          hdx := inv.hdx
          hdy := inv.hdy
          hsx := inv.hsx
          hsy := inv.hsy
          htx := inv.htx
          hty := inv.hty
          hstop := decide_eq_false hpyne
          hrx0 := by omega
          hrxa := by have := inv.hrxa; omega
          hry0 := by omega
          hryb := by have := inv.hryb; omega
          hpx := by
            show tx - (s.px + s.sx) = sx * (rx - 1)
            rw [inv.hsx]
            linear_combination inv.hpx
          hpy := by
            show ty - (s.py + s.sy) = sy * (ry - 1)
            rw [inv.hsy]
            linear_combination inv.hpy
          herr := by
            show s.error + s.dy + s.dx = a - b + ((rx - 1) * b - (ry - 1) * a)
            rw [inv.herr, inv.hdy, inv.hdx]
            ring
          hlo := by
            rw [max_eq_left hab]
            have e : (rx - 1) * b - (ry - 1) * a =
                (rx * b - ry * a) + a - b := by ring
            rw [e]
            linarith
          hhi := by
            rw [max_eq_left hab]
            have e : (rx - 1) * b - (ry - 1) * a =
                (rx * b - ry * a) + a - b := by ring
            rw [e]
            linarith
          hsx1 := inv.hsx1
          hsy1 := inv.hsy1 }
      · rw [max_eq_left (show ry - 1 ≤ rx - 1 by omega), max_eq_left hryrx]
        omega
    · -- only the x axis advances
      have hry_lt : ry ≤ rx - 1 := by
        rcases eq_or_lt_of_le hryrx with heq | hlt
        · exfalso
          apply hcondY
          rw [hYe, ← heq]
          have e1 : 0 ≤ (a - b) * (ry - 1) := mul_nonneg (by omega) (by
            have : 0 < ry := by rw [heq]; exact hrxpos
            omega)
          nlinarith [e1]
        · omega
      have hYraw : ¬ (2 * (a - b + (rx * b - ry * a)) ≤ a) := by
        rw [← hYe]; exact hcondY
      push_neg at hYraw
      simp only [bresStep, inv.hstop, Bool.false_eq_true, if_false,
        if_pos hcondX, if_neg hcondY]
      refine ⟨_, rx - 1, ry, rfl, ?_, ?_⟩
      · exact {
          hdx := inv.hdx
          hdy := inv.hdy
          hsx := inv.hsx
          hsy := inv.hsy
          htx := inv.htx
          hty := inv.hty
          hstop := decide_eq_false hpxne
          hrx0 := by omega
          hrxa := by have := inv.hrxa; omega
          hry0 := inv.hry0
          hryb := inv.hryb
          hpx := by
            show tx - (s.px + s.sx) = sx * (rx - 1)
            rw [inv.hsx]
            linear_combination inv.hpx
          hpy := inv.hpy
          herr := by
            show s.error + s.dy = a - b + ((rx - 1) * b - ry * a)
            rw [inv.herr, inv.hdy]
            ring
          hlo := by
            rw [max_eq_left hab]
            have e : (rx - 1) * b - ry * a = (rx * b - ry * a) - b := by ring
            rw [e]
            linarith
          hhi := by
            rw [max_eq_left hab]
            have e : (rx - 1) * b - ry * a = (rx * b - ry * a) - b := by ring
            rw [e]
            linarith
          hsx1 := inv.hsx1
          hsy1 := inv.hsy1 }
      · rw [max_eq_left (show ry ≤ rx - 1 from hry_lt), max_eq_left hryrx]
        omega
  · -- |dy| > |dx|: the y axis drives and advances on every step.
    have hlo := inv.hlo
    have hhi := inv.hhi
    rw [max_eq_right hab.le] at hlo hhi
    have hrxry : rx ≤ ry := by
      by_contra hcon
      push_neg at hcon
      have h1 : ry + 1 ≤ rx := hcon
      have e1 : (ry + 1) * b ≤ rx * b := mul_le_mul_of_nonneg_right h1 hb0
      have e2 : ry * a ≤ ry * b := mul_le_mul_of_nonneg_left hab.le inv.hry0
      have e3 : (ry + 1) * b = ry * b + b := by ring
      have hB0 : b ≤ 0 := by linarith
      linarith
    have hrypos : 0 < ry := by
      rw [max_eq_right hrxry] at hpos
      exact hpos
    have hcondY : 2 * s.error ≤ s.dx := by
      rw [hYe]
      linarith
    have hpyne : ¬ (s.py = s.ty) := by
      intro h
      have h2 := inv.hpy
      rw [h, inv.hty] at h2
      rcases inv.hsy1 with hs | hs <;> rw [hs] at h2 <;> omega
    by_cases hcondX : s.dy ≤ 2 * s.error
    · -- both axes advance
      have hrx1 : 1 ≤ rx := by
        by_contra hcon
        push_neg at hcon
        have hrx0' : rx = 0 := le_antisymm (by omega) inv.hrx0
        rw [hXe, hrx0'] at hcondX
        have e1 : 0 ≤ a * (ry - 1) := mul_nonneg ha0 (by omega)
        have e2 : a * (ry - 1) = ry * a - a := by ring
        have hB0 : b ≤ 0 := by linarith
        linarith
      have hXraw := hXe.mp hcondX
      have hYraw := hYe.mp hcondY
      simp only [bresStep, inv.hstop, Bool.false_eq_true, if_false,
        if_pos hcondX, if_pos hcondY]
      refine ⟨_, rx - 1, ry - 1, rfl, ?_, ?_⟩
      · exact {
          hdx := inv.hdx
          hdy := inv.hdy
          hsx := inv.hsx
          hsy := inv.hsy
          htx := inv.htx
          hty := inv.hty
          hstop := decide_eq_false hpyne
          hrx0 := by omega
          hrxa := by have := inv.hrxa; omega
          hry0 := by omega
          hryb := by have := inv.hryb; omega
          hpx := by
            show tx - (s.px + s.sx) = sx * (rx - 1)
            rw [inv.hsx]
            linear_combination inv.hpx
          hpy := by
            show ty - (s.py + s.sy) = sy * (ry - 1)
            rw [inv.hsy]
            linear_combination inv.hpy
          herr := by
            show s.error + s.dy + s.dx = a - b + ((rx - 1) * b - (ry - 1) * a)
            rw [inv.herr, inv.hdy, inv.hdx]
            ring
          hlo := by
            rw [max_eq_right hab.le]
            have e : (rx - 1) * b - (ry - 1) * a =
                (rx * b - ry * a) + a - b := by ring
            rw [e]
            linarith
          hhi := by
            rw [max_eq_right hab.le]
            have e : (rx - 1) * b - (ry - 1) * a =
                (rx * b - ry * a) + a - b := by ring
            rw [e]
            linarith
          hsx1 := inv.hsx1
          hsy1 := inv.hsy1 }
      · rw [max_eq_right (show rx - 1 ≤ ry - 1 by omega), max_eq_right hrxry]
        omega
    · -- only the y axis advances
      have hrx_lt : rx ≤ ry - 1 := by
        rcases eq_or_lt_of_le hrxry with heq | hlt
        · exfalso
          apply hcondX
          rw [hXe, heq]
          have e1 : (b - a) * 1 ≤ (b - a) * (2 * ry - 1) := by
            apply mul_le_mul_of_nonneg_left _ (by omega)
            omega
          nlinarith [e1]
        · omega
      have hXraw : ¬ (-b ≤ 2 * (a - b + (rx * b - ry * a))) := by
        rw [← hXe]; exact hcondX
      push_neg at hXraw
      simp only [bresStep, inv.hstop, Bool.false_eq_true, if_false,
        if_neg hcondX, if_pos hcondY]
      refine ⟨_, rx, ry - 1, rfl, ?_, ?_⟩
      · exact {
          hdx := inv.hdx
          hdy := inv.hdy
          hsx := inv.hsx
          hsy := inv.hsy
          htx := inv.htx
          hty := inv.hty
          hstop := decide_eq_false hpyne
          hrx0 := inv.hrx0
          hrxa := inv.hrxa
          hry0 := by omega
          hryb := by have := inv.hryb; omega
          hpx := inv.hpx
          hpy := by
            show ty - (s.py + s.sy) = sy * (ry - 1)
            rw [inv.hsy]
            linear_combination inv.hpy
          herr := by
            show s.error + s.dx = a - b + (rx * b - (ry - 1) * a)
            rw [inv.herr, inv.hdx]
            ring
          hlo := by
            rw [max_eq_right hab.le]
            have e : rx * b - (ry - 1) * a = (rx * b - ry * a) + a := by ring
            rw [e]
            linarith
          hhi := by
            rw [max_eq_right hab.le]
            have e : rx * b - (ry - 1) * a = (rx * b - ry * a) + a := by ring
            rw [e]
            linarith
          hsx1 := inv.hsx1
          hsy1 := inv.hsy1 }
      · rw [max_eq_right (show rx ≤ ry - 1 from hrx_lt), max_eq_right hrxry]
        omega

lemma bres_run_inv (a b sx sy tx ty : ℤ) :
    ∀ (n : ℕ) (s : BresenhamLine) (rx ry : ℤ),
      BInv a b sx sy tx ty s rx ry → max rx ry = (n : ℤ) →
      (bresRun (n + 1) s).1.length = n + 1 ∧
      (bresRun (n + 1) s).1.getLast? = some (Pixel.normal tx ty) ∧
      (bresRun (n + 1) s).2.stop = true := by
  intro n
  induction n with
  | zero =>
    intro s rx ry inv hmax
    have hrx : rx = 0 := by
      have h1 : rx ≤ max rx ry := le_max_left rx ry
      rw [hmax] at h1
      have h2 := inv.hrx0
      omega
    have hry : ry = 0 := by
      have h1 : ry ≤ max rx ry := le_max_right rx ry
      rw [hmax] at h1
      have h2 := inv.hry0
      omega
    subst hrx
    subst hry
    obtain ⟨s2, hstep, hstop⟩ := bres_step_last inv
    rw [bresRun_succ 0 hstep]
    exact ⟨by simp [bresRun], by simp [bresRun], by simp [bresRun, hstop]⟩
  | succ m ih =>
    intro s rx ry inv hmax
    have hpos : 0 < max rx ry := by
      rw [hmax]
      exact_mod_cast Nat.succ_pos m
    obtain ⟨s2, rx2, ry2, hstep, inv2, hdec⟩ := bres_step_mid inv hpos
    have hmax2 : max rx2 ry2 = (m : ℤ) := by
      rw [hmax] at hdec
      push_cast at hdec ⊢
      omega
    obtain ⟨hlen, hlast, hstop⟩ := ih s2 rx2 ry2 inv2 hmax2
    rw [bresRun_succ (m + 1) hstep]
    refine ⟨by simp [hlen], ?_, hstop⟩
    have hne : (bresRun (m + 1) s2).1 ≠ [] := by
      intro h
      rw [h] at hlen
      simp at hlen
    cases hl : (bresRun (m + 1) s2).1 with
    | nil => exact absurd hl hne
    | cons q qs =>
      rw [hl] at hlast
      simp only [List.getLast?_cons_cons]
      exact hlast

/-- C2: for any integer endpoints, the Bresenham iterator is finite (its
output is unchanged by extra fuel and its final state is stopped,
returning `None` forever), emits exactly `max(|dx|,|dy|) + 1` pixels, and
its last pixel is exactly the target `to`. -/
theorem bresenham_line_spec (f t : ℤ × ℤ) (fuel : ℕ)
    (hfuel : bresCount f t + 1 ≤ fuel) :
    (bresRun fuel (BresenhamLine.new f t)).1 =
      (bresRun (bresCount f t + 1) (BresenhamLine.new f t)).1 ∧
    (bresRun fuel (BresenhamLine.new f t)).1.length = bresCount f t + 1 ∧
    (bresRun fuel (BresenhamLine.new f t)).1.getLast? =
      some (Pixel.normal t.1 t.2) ∧
    (bresRun fuel (BresenhamLine.new f t)).2.stop = true := by
  have hinv : BInv |t.1 - f.1| |t.2 - f.2| (if f.1 < t.1 then 1 else -1)
      (if f.2 < t.2 then 1 else -1) t.1 t.2 (BresenhamLine.new f t)
      |t.1 - f.1| |t.2 - f.2| := by
    exact {
      hdx := rfl
      hdy := rfl
      hsx := rfl
      hsy := rfl
      htx := rfl
      hty := rfl
      hstop := rfl
      hrx0 := abs_nonneg _
      hrxa := le_refl _
      hry0 := abs_nonneg _
      hryb := le_refl _
      hpx := by
        show t.1 - f.1 = (if f.1 < t.1 then 1 else -1) * |t.1 - f.1|
        split_ifs with h
        · rw [one_mul, abs_of_nonneg (by omega)]
        · rw [abs_of_nonpos (by omega)]
          ring
      hpy := by
        show t.2 - f.2 = (if f.2 < t.2 then 1 else -1) * |t.2 - f.2|
        split_ifs with h
        · rw [one_mul, abs_of_nonneg (by omega)]
        · rw [abs_of_nonpos (by omega)]
          ring
      herr := by
        show |t.1 - f.1| + -|t.2 - f.2| = _
        ring
      hlo := by
        have h : |t.1 - f.1| * |t.2 - f.2| - |t.2 - f.2| * |t.1 - f.1| = 0 :=
          by ring
        rw [h]
        have h2 : (0 : ℤ) ≤ max |t.1 - f.1| |t.2 - f.2| :=
          le_trans (abs_nonneg _) (le_max_left _ _)
        omega
      hhi := by
        have h : |t.1 - f.1| * |t.2 - f.2| - |t.2 - f.2| * |t.1 - f.1| = 0 :=
          by ring
        rw [h]
        have h2 : (0 : ℤ) ≤ max |t.1 - f.1| |t.2 - f.2| :=
          le_trans (abs_nonneg _) (le_max_left _ _)
        omega
      hsx1 := by split_ifs <;> simp
      hsy1 := by split_ifs <;> simp }
  have hmaxcast : max |t.1 - f.1| |t.2 - f.2| = ((bresCount f t : ℕ) : ℤ) := by
    unfold bresCount
    rw [Int.toNat_of_nonneg (le_trans (abs_nonneg _) (le_max_left _ _))]
  obtain ⟨hlen, hlast, hstop⟩ :=
    bres_run_inv |t.1 - f.1| |t.2 - f.2| (if f.1 < t.1 then 1 else -1)
      (if f.2 < t.2 then 1 else -1) t.1 t.2 (bresCount f t)
      (BresenhamLine.new f t) |t.1 - f.1| |t.2 - f.2| hinv hmaxcast
  obtain ⟨k, rfl⟩ : ∃ k, fuel = (bresCount f t + 1) + k :=
    ⟨fuel - (bresCount f t + 1), by omega⟩
  rw [bresRun_add (bresCount f t + 1) k]
  rw [bresRun_of_step_none (bresStep_of_stop hstop) k]
  exact ⟨by simp, by simpa using hlen, by simpa using hlast, hstop⟩

/-- Witness for `bresenham_line_spec` on the segment `(0,0) → (5,2)` with
fuel 10. -/
theorem bresenham_line_spec_witness :
    (bresRun 10 (BresenhamLine.new ((0 : ℤ), (0 : ℤ)) (5, 2))).1.length =
      bresCount (0, 0) (5, 2) + 1 :=
  (bresenham_line_spec (0, 0) (5, 2) 10 (by decide)).2.1

/-! ### Wu antialiased line generator (src/drawing.rs, lines 202-380)

All `f32` arithmetic is carried out on `ℚ`; `ceil`, `fract` (Rust's
truncation-based fract) and the `as i32` casts are modelled exactly. -/

/-- Iterator state of `WuLine` (src/drawing.rs). -/
structure WuLine where
  steep : Bool
  x : ℤ
  x_end : ℤ
  inter_y : ℚ
  gradient : ℚ
  is_drawind_pixel_a : Bool
  start_end_buffer : List Pixel
deriving DecidableEq, Repr

/-- `WuLine::new` (the `Line` trait impl): swap axes when steep, orient
left-to-right, guard a vertical/degenerate segment with `gradient = 1`,
and buffer the four endpoint-coverage pixels (start pair then end pair). -/
def WuLine.new (f t : ℤ × ℤ) : WuLine :=
  let fq : ℚ × ℚ := ((f.1 : ℚ), (f.2 : ℚ))
  let tq : ℚ × ℚ := ((t.1 : ℚ), (t.2 : ℚ))
  let steep : Bool := decide (|tq.2 - fq.2| > |tq.1 - fq.1|)
  let fq2 : ℚ × ℚ := if steep then (fq.2, fq.1) else fq
  let tq2 : ℚ × ℚ := if steep then (tq.2, tq.1) else tq
  let fq3 : ℚ × ℚ := if fq2.1 > tq2.1 then tq2 else fq2
  let tq3 : ℚ × ℚ := if fq2.1 > tq2.1 then fq2 else tq2
  let dx : ℚ := tq3.1 - fq3.1
  let dy : ℚ := tq3.2 - fq3.2
  let gradient : ℚ := if dx = 0 then 1 else dy / dx
  -- starting point
  let x : ℚ := (⌈fq3.1⌉ : ℚ)
  let y : ℚ := fq3.2 + gradient * (x - fq3.1)
  let x_gap : ℚ := 1 - rustFract (fq3.1 + 1/2)
  let x_start : ℤ := rustTrunc x
  let y_start : ℤ := rustTrunc y
  let p1 : Pixel :=
    if steep then
      .antiAliased y_start x_start (alpha_f32_to_u8 ((1 - rustFract y) * x_gap))
    else
      .antiAliased x_start y_start (alpha_f32_to_u8 ((1 - rustFract y) * x_gap))
  let p2 : Pixel :=
    if steep then
      .antiAliased (y_start + 1) x_start (alpha_f32_to_u8 (rustFract y * x_gap))
    else
      .antiAliased x_start (y_start + 1) (alpha_f32_to_u8 (rustFract y * x_gap))
  let inter_y : ℚ := y + gradient
  -- ending point
  let x2 : ℚ := (⌈tq3.1⌉ : ℚ)
  let y2 : ℚ := tq3.2 + gradient * (x2 - tq3.1)
  let x_gap2 : ℚ := rustFract (tq3.1 + 1/2)
  let x_end : ℤ := rustTrunc x2
  let y_end : ℤ := rustTrunc y2
  let p3 : Pixel :=
    if steep then
      .antiAliased y_end x_end (alpha_f32_to_u8 ((1 - rustFract y2) * x_gap2))
    else
      .antiAliased x_end y_end (alpha_f32_to_u8 ((1 - rustFract y2) * x_gap2))
  let p4 : Pixel :=
    if steep then
      .antiAliased (y_end + 1) x_end (alpha_f32_to_u8 (rustFract y2 * x_gap2))
    else
      .antiAliased x_end (y_end + 1) (alpha_f32_to_u8 (rustFract y2 * x_gap2))
  ⟨steep, x_start + 1, x_end, inter_y, gradient, true, [p1, p2, p3, p4]⟩

/-- One call of `<WuLine as Iterator>::next`: drain the buffered endpoint
pixels from the back, stop once `x ≥ x_end`, otherwise alternate between
the two pixels straddling the interpolated intercept, advancing `x` and
`inter_y` after the second one. -/
def wuStep (s : WuLine) : Option (Pixel × WuLine) :=
  match s.start_end_buffer.getLast? with
  | some p =>
    some (p, { s with start_end_buffer := s.start_end_buffer.dropLast })
  | none =>
    if s.x_end ≤ s.x then none
    else if s.is_drawind_pixel_a then
      let f_opacity : ℚ := 1 - rustFract s.inter_y
      let px : Pixel :=
        if s.steep then
          .antiAliased (rustTrunc s.inter_y) s.x (alpha_f32_to_u8 f_opacity)
        else
          .antiAliased s.x (rustTrunc s.inter_y) (alpha_f32_to_u8 f_opacity)
      some (px, { s with is_drawind_pixel_a := false })
    else
      let x0 : ℤ := s.x
      let f_opacity : ℚ := rustFract s.inter_y
      let iy : ℚ := s.inter_y + s.gradient
      let px : Pixel :=
        if s.steep then
          .antiAliased (rustTrunc iy + 1) x0 (alpha_f32_to_u8 f_opacity)
        else
          .antiAliased x0 (rustTrunc iy + 1) (alpha_f32_to_u8 f_opacity)
      some (px, { s with is_drawind_pixel_a := true, x := s.x + 1, inter_y := iy })

/-- Run the Wu iterator for at most `fuel` calls. -/
def wuRun : ℕ → WuLine → List Pixel × WuLine
  | 0, s => ([], s)
  | n + 1, s =>
    match wuStep s with
    | none => ([], s)
    | some (p, s1) =>
      let r := wuRun n s1
      (p :: r.1, r.2)

/-- All pixels of a `WuLine` instance: enough fuel for the 4 buffered
endpoint pixels plus two pixels per interior column. -/
def wuList (f t : ℤ × ℤ) : List Pixel :=
  let s := WuLine.new f t
  (wuRun (s.start_end_buffer.length + 2 * (s.x_end - s.x).toNat + 1) s).1

/-- Position of a pixel, discarding its opacity. -/
def pixelPos : Pixel → ℤ × ℤ
  | .normal x y => (x, y)
  | .antiAliased x y _ => (x, y)

lemma wuRun_succ_eq (n m : ℕ) (hm : m = n + 1) {s s1 : WuLine} {p : Pixel}
    (h : wuStep s = some (p, s1)) :
    wuRun m s = (p :: (wuRun n s1).1, (wuRun n s1).2) := by
  subst hm
  simp [wuRun, h]

lemma wuStep_pop (st : Bool) (x xe : ℤ) (iy g : ℚ) (fl : Bool)
    (buf : List Pixel) (q : Pixel) :
    wuStep ⟨st, x, xe, iy, g, fl, buf ++ [q]⟩ =
      some (q, ⟨st, x, xe, iy, g, fl, buf⟩) := by
  simp [wuStep, List.getLast?_concat, List.dropLast_concat]

lemma wuRun_of_step_none {s : WuLine} (h : wuStep s = none) :
    ∀ n, wuRun n s = ([], s) := by
  intro n
  cases n with
  | zero => rfl
  | succ m => simp [wuRun, h]

lemma wuRun_buffer_only (st : Bool) (x xe : ℤ) (iy g : ℚ) (fl : Bool)
    (hstop : xe ≤ x) :
    ∀ (n : ℕ) (buf : List Pixel), buf.length ≤ n →
      (wuRun n ⟨st, x, xe, iy, g, fl, buf⟩).1 = buf.reverse := by
  intro n
  induction n with
  | zero =>
    intro buf hn
    have : buf = [] := List.length_eq_zero.mp (by omega)
    subst this
    rfl
  | succ m ih =>
    intro buf hn
    rcases List.eq_nil_or_concat buf with rfl | ⟨b, q, rfl⟩
    · have hnone : wuStep ⟨st, x, xe, iy, g, fl, []⟩ = none := by
        simp [wuStep, hstop]
      rw [wuRun_of_step_none hnone]
      rfl
    · simp only [List.concat_eq_append] at hn ⊢
      rw [wuRun_succ_eq m (m + 1) rfl (wuStep_pop st x xe iy g fl b q)]
      rw [ih b (by simpa using hn)]
      simp

lemma wuList_ne_nil (f t : ℤ × ℤ) : wuList f t ≠ [] := by
  have hlen : (WuLine.new f t).start_end_buffer.length = 4 := rfl
  obtain ⟨q, hq⟩ : ∃ q, (WuLine.new f t).start_end_buffer.getLast? = some q := by
    cases h : (WuLine.new f t).start_end_buffer.getLast? with
    | none =>
      rw [List.getLast?_eq_none_iff] at h
      rw [h] at hlen
      simp at hlen
    | some q => exact ⟨q, rfl⟩
  have hstep : wuStep (WuLine.new f t) =
      some (q, { WuLine.new f t with
        start_end_buffer := (WuLine.new f t).start_end_buffer.dropLast }) := by
    unfold wuStep
    rw [hq]
  unfold wuList
  show (wuRun ((WuLine.new f t).start_end_buffer.length +
      2 * ((WuLine.new f t).x_end - (WuLine.new f t).x).toNat + 1)
      (WuLine.new f t)).1 ≠ []
  rw [wuRun_succ_eq ((WuLine.new f t).start_end_buffer.length +
      2 * ((WuLine.new f t).x_end - (WuLine.new f t).x).toNat) _ rfl hstep]
  simp

/-- C8 (counterexample): a zero-length segment does emit pixels — the
Bresenham generator emits the shared endpoint and the Wu generator emits
its four buffered endpoint pixels. -/
theorem zero_length_no_pixels_cex :
    wuList (0, 0) (0, 0) ≠ [] ∧
    (bresRun (bresCount (0, 0) (0, 0) + 1)
      (BresenhamLine.new ((0 : ℤ), (0 : ℤ)) (0, 0))).1 =
      [Pixel.normal 0 0] := by
  constructor
  · exact wuList_ne_nil (0, 0) (0, 0)
  · decide

/-- C8 (amended): a zero-length segment (`from = to`) causes no division
by zero — `WuLine::new` guards `dx = 0` with `gradient = 1` — and emits a
fixed degenerate pixel set rather than none: Bresenham emits exactly one
pixel at the shared endpoint, and Wu emits exactly its four buffered
endpoint pixels, located at the endpoint and the pixel below it, with no
interior pixels. -/
theorem zero_length_segment_spec (p : ℤ × ℤ) :
    (WuLine.new p p).gradient = 1 ∧
    (wuList p p).map pixelPos =
      [(p.1, p.2 + 1), (p.1, p.2), (p.1, p.2 + 1), (p.1, p.2)] ∧
    (bresRun (bresCount p p + 1) (BresenhamLine.new p p)).1 =
      [Pixel.normal p.1 p.2] := by
  have hnew : WuLine.new p p = ⟨false, p.1 + 1, p.1, (p.2 : ℚ) + 1, 1, true,
      [Pixel.antiAliased p.1 p.2
         (alpha_f32_to_u8 (1 - rustFract ((p.1 : ℚ) + 1/2))),
       Pixel.antiAliased p.1 (p.2 + 1) (alpha_f32_to_u8 0),
       Pixel.antiAliased p.1 p.2
         (alpha_f32_to_u8 (rustFract ((p.1 : ℚ) + 1/2))),
       Pixel.antiAliased p.1 (p.2 + 1) (alpha_f32_to_u8 0)]⟩ := by
    simp [WuLine.new]
  refine ⟨by rw [hnew], ?_, ?_⟩
  · show ((wuRun ((WuLine.new p p).start_end_buffer.length +
        2 * ((WuLine.new p p).x_end - (WuLine.new p p).x).toNat + 1)
        (WuLine.new p p)).1).map pixelPos = _
    rw [hnew]
    rw [wuRun_buffer_only false (p.1 + 1) p.1 ((p.2 : ℚ) + 1) 1 true
      (by omega) _ _ (by simp)]
    simp [pixelPos]
  · have hcount : bresCount p p = 0 := by
      simp [bresCount]
    rw [hcount]
    have hinv : BInv 0 0 (if p.1 < p.1 then 1 else -1) (if p.2 < p.2 then 1 else -1)
        p.1 p.2 (BresenhamLine.new p p) 0 0 := by
      exact {
        hdx := by show |p.1 - p.1| = 0; simp
        hdy := by show -|p.2 - p.2| = -0; simp
        hsx := rfl
        hsy := rfl
        htx := rfl
        hty := rfl
        hstop := rfl
        hrx0 := le_refl 0
        hrxa := le_refl 0
        hry0 := le_refl 0
        hryb := le_refl 0
        hpx := by simp [BresenhamLine.new]
        hpy := by simp [BresenhamLine.new]
        herr := by show |p.1 - p.1| + -|p.2 - p.2| = _; simp
        hlo := by simp
        hhi := by simp
        hsx1 := by split_ifs <;> simp
        hsy1 := by split_ifs <;> simp }
    obtain ⟨s2, hstep, _⟩ := bres_step_last hinv
    rw [bresRun_succ 0 hstep]
    rfl

/-! ### Compositor `Drawifier` (src/renderer/drawifier.rs)

The frame stores RGBA bytes.  A source pixel is always white with the
pixel's alpha (`Srgba::new(0xff, 0xff, 0xff, a)`); both colors are
converted to floats by dividing by 255, composed with palette's
premultiplied "source over destination", and converted back by rounding
`x * 255`. -/

/-- A four-channel float color (palette's `Srgba<f32>` on `ℚ`). -/
structure Rgba where
  red : ℚ
  green : ℚ
  blue : ℚ
  alpha : ℚ
deriving DecidableEq, Repr

/-- `u8` component to float: divide by 255. -/
def u8ToF32 (n : ℕ) : ℚ := (n : ℚ) / 255

/-- Float component to `u8`: round `x·255` half away from zero and clamp. -/
def f32ToU8 (q : ℚ) : ℕ := (max 0 (min 255 (rustRound (q * 255)))).toNat

/-- Premultiply the color channels by the alpha channel. -/
def Rgba.premultiply (c : Rgba) : Rgba :=
  ⟨c.red * c.alpha, c.green * c.alpha, c.blue * c.alpha, c.alpha⟩

/-- Source-over on premultiplied colors: `src + dest·(1 − src.alpha)`
componentwise, including alpha. -/
def Rgba.overPre (s d : Rgba) : Rgba :=
  ⟨s.red + d.red * (1 - s.alpha), s.green + d.green * (1 - s.alpha),
   s.blue + d.blue * (1 - s.alpha), s.alpha + d.alpha * (1 - s.alpha)⟩

/-- Undo premultiplication; an all-transparent result stays zero. -/
def Rgba.unpremultiply (c : Rgba) : Rgba :=
  if c.alpha = 0 then ⟨0, 0, 0, 0⟩
  else ⟨c.red / c.alpha, c.green / c.alpha, c.blue / c.alpha, c.alpha⟩

/-- palette's `Compose::over` for straight-alpha colors. -/
def Rgba.over (s d : Rgba) : Rgba :=
  (s.premultiply.overPre d.premultiply).unpremultiply

/-- One destination-pixel update of `Drawifier::render`: blend a white
source with alpha byte `a` over the destination bytes `(r, g, b, a)`. -/
def drawifierBlend (a : ℕ) (dest : ℕ × ℕ × ℕ × ℕ) : ℕ × ℕ × ℕ × ℕ :=
  let d : Rgba := ⟨u8ToF32 dest.1, u8ToF32 dest.2.1,
    u8ToF32 dest.2.2.1, u8ToF32 dest.2.2.2⟩
  let s : Rgba := ⟨u8ToF32 255, u8ToF32 255, u8ToF32 255, u8ToF32 a⟩
  let r := s.over d
  (f32ToU8 r.red, f32ToU8 r.green, f32ToU8 r.blue, f32ToU8 r.alpha)

lemma f32ToU8_div (n : ℕ) (h : n ≤ 255) : f32ToU8 ((n : ℚ) / 255) = n := by
  unfold f32ToU8 rustRound
  have he : ((n : ℚ) / 255) * 255 = (n : ℚ) := by field_simp
  rw [he, if_pos (by positivity)]
  have hf : ⌊(n : ℚ) + 1 / 2⌋ = (n : ℤ) := by
    rw [Int.floor_eq_iff]
    constructor
    · push_cast
      linarith
    · push_cast
      linarith
  rw [hf]
  omega

/-- C9: blending onto an in-frame destination pixel (alpha byte 255, as
produced by the opaque clear and by every previous blend): a fully opaque
source (`a = 255`, e.g. `Pixel::Normal`) replaces the destination with the
source color entirely; a fully transparent source (`a = 0`) leaves the
destination bytes unchanged; and in general each channel follows the
source-over rule `src·srcAlpha + dest·(1 − srcAlpha)`. -/
theorem drawifier_blend_spec (r g b : ℕ) (hr : r ≤ 255) (hg : g ≤ 255)
    (hb : b ≤ 255) :
    drawifierBlend 255 (r, g, b, 255) = (255, 255, 255, 255) ∧
    drawifierBlend 0 (r, g, b, 255) = (r, g, b, 255) ∧
    (∀ a : ℕ,
      drawifierBlend a (r, g, b, 255) =
        (f32ToU8 (1 * ((a : ℚ)/255) + ((r : ℚ)/255) * (1 - (a : ℚ)/255)),
         f32ToU8 (1 * ((a : ℚ)/255) + ((g : ℚ)/255) * (1 - (a : ℚ)/255)),
         f32ToU8 (1 * ((a : ℚ)/255) + ((b : ℚ)/255) * (1 - (a : ℚ)/255)),
         f32ToU8 1)) := by
  have hone : f32ToU8 1 = 255 := by
    have h := f32ToU8_div 255 (le_refl 255)
    norm_num at h
    exact h
  have hgen : ∀ a : ℕ,
      drawifierBlend a (r, g, b, 255) =
        (f32ToU8 (1 * ((a : ℚ)/255) + ((r : ℚ)/255) * (1 - (a : ℚ)/255)),
         f32ToU8 (1 * ((a : ℚ)/255) + ((g : ℚ)/255) * (1 - (a : ℚ)/255)),
         f32ToU8 (1 * ((a : ℚ)/255) + ((b : ℚ)/255) * (1 - (a : ℚ)/255)),
         f32ToU8 1) := by
    intro a
    unfold drawifierBlend Rgba.over Rgba.premultiply Rgba.overPre
      Rgba.unpremultiply u8ToF32
    have h255 : ((255 : ℕ) : ℚ) / 255 = 1 := by norm_num
    simp only [h255]
    have halpha : (a : ℚ) / 255 + 1 * (1 - (a : ℚ) / 255) = 1 := by ring
    rw [halpha]
    rw [if_neg (by norm_num : (1 : ℚ) ≠ 0)]
    simp only [Prod.mk.injEq]
    refine ⟨?_, ?_, ?_, ?_⟩
    · congr 1
      ring
    · congr 1
      ring
    · congr 1
      ring
    · trivial
  refine ⟨?_, ?_, hgen⟩
  · rw [hgen 255]
    have h1 : (1 : ℚ) * (((255 : ℕ) : ℚ)/255) +
        ((r : ℚ)/255) * (1 - ((255 : ℕ) : ℚ)/255) = 1 := by norm_num
    have h2 : (1 : ℚ) * (((255 : ℕ) : ℚ)/255) +
        ((g : ℚ)/255) * (1 - ((255 : ℕ) : ℚ)/255) = 1 := by norm_num
    have h3 : (1 : ℚ) * (((255 : ℕ) : ℚ)/255) +
        ((b : ℚ)/255) * (1 - ((255 : ℕ) : ℚ)/255) = 1 := by norm_num
    rw [h1, h2, h3, hone]
  · rw [hgen 0]
    have hch : ∀ n : ℕ, n ≤ 255 →
        f32ToU8 (1 * (((0 : ℕ) : ℚ)/255) +
          ((n : ℚ)/255) * (1 - ((0 : ℕ) : ℚ)/255)) = n := by
      intro n hn
      have he : (1 : ℚ) * (((0 : ℕ) : ℚ)/255) +
          ((n : ℚ)/255) * (1 - ((0 : ℕ) : ℚ)/255) = (n : ℚ) / 255 := by
        push_cast
        ring
      rw [he]
      exact f32ToU8_div n hn
    rw [hch r hr, hch g hg, hch b hb, hone]

/-- Witness for `drawifier_blend_spec` on destination bytes `(10,20,30,255)`. -/
theorem drawifier_blend_spec_witness :
    drawifierBlend 0 (10, 20, 30, 255) = (10, 20, 30, 255) :=
  (drawifier_blend_spec 10 20 30 (by norm_num) (by norm_num)
    (by norm_num)).2.1

/-! ### IEEE-style float values for the depth pipeline

The depth buffer is initialized to `f32::INFINITY` and a zero-area
triangle makes the code divide by zero, so the `f32` values flowing
through the fill pass are modelled by `RF`: an exact rational or one of
the IEEE special values.  Division adopts the positive-zero convention
(`q/0 = ±∞` by the sign of `q`, `0/0 = NaN`); every division by zero the
fill pass can actually perform has a zero numerator, where the signed
zeros of IEEE agree with this model (`±0/±0 = NaN`). -/

/-- A finite rational or an IEEE special value. -/
inductive RF
  | fin (q : ℚ)
  | pinf
  | ninf
  | nan
deriving DecidableEq, Repr

/-- IEEE addition. -/
def RF.add : RF → RF → RF
  | nan, _ => nan
  | _, nan => nan
  | fin a, fin b => fin (a + b)
  | fin _, pinf => pinf
  | pinf, fin _ => pinf
  | fin _, ninf => ninf
  | ninf, fin _ => ninf
  | pinf, pinf => pinf
  | ninf, ninf => ninf
  | pinf, ninf => nan
  | ninf, pinf => nan

/-- IEEE negation. -/
def RF.neg : RF → RF
  | nan => nan
  | fin a => fin (-a)
  | pinf => ninf
  | ninf => pinf

/-- IEEE subtraction. -/
def RF.sub (x y : RF) : RF := x.add y.neg

/-- IEEE multiplication (`0 · ∞ = NaN`). -/
def RF.mul : RF → RF → RF
  | nan, _ => nan
  | _, nan => nan
  | fin a, fin b => fin (a * b)
  | fin a, pinf => if a = 0 then nan else if 0 < a then pinf else ninf
  | pinf, fin b => if b = 0 then nan else if 0 < b then pinf else ninf
  | fin a, ninf => if a = 0 then nan else if 0 < a then ninf else pinf
  | ninf, fin b => if b = 0 then nan else if 0 < b then ninf else pinf
  | pinf, pinf => pinf
  | ninf, ninf => pinf
  | pinf, ninf => ninf
  | ninf, pinf => ninf

/-- IEEE division with the positive-zero convention. -/
def RF.div : RF → RF → RF
  | nan, _ => nan
  | _, nan => nan
  | fin a, fin b =>
      if b = 0 then (if a = 0 then nan else if 0 < a then pinf else ninf)
      else fin (a / b)
  | fin _, pinf => fin 0
  | fin _, ninf => fin 0
  | pinf, fin b => if 0 ≤ b then pinf else ninf
  | ninf, fin b => if 0 ≤ b then ninf else pinf
  | pinf, pinf => nan
  | pinf, ninf => nan
  | ninf, pinf => nan
  | ninf, ninf => nan

/-- IEEE strict comparison: `NaN` compares false with everything. -/
def RF.lt : RF → RF → Bool
  | nan, _ => false
  | _, nan => false
  | fin a, fin b => decide (a < b)
  | fin _, pinf => true
  | fin _, ninf => false
  | pinf, _ => false
  | ninf, fin _ => true
  | ninf, pinf => true
  | ninf, ninf => false

@[simp] lemma RF.mul_nan (x : RF) : RF.mul x RF.nan = RF.nan := by
  cases x <;> rfl

@[simp] lemma RF.nan_mul (x : RF) : RF.mul RF.nan x = RF.nan := by
  cases x <;> rfl

@[simp] lemma RF.add_nan (x : RF) : RF.add x RF.nan = RF.nan := by
  cases x <;> rfl

@[simp] lemma RF.nan_add (x : RF) : RF.add RF.nan x = RF.nan := by
  cases x <;> rfl

@[simp] lemma RF.lt_nan (x : RF) : RF.lt x RF.nan = false := by
  cases x <;> rfl

@[simp] lemma RF.nan_lt (x : RF) : RF.lt RF.nan x = false := by
  cases x <;> rfl

@[simp] lemma RF.div_nan (x : RF) : RF.div x RF.nan = RF.nan := by
  cases x <;> rfl

lemma RF.fin_lt_pinf (q : ℚ) : RF.lt (RF.fin q) RF.pinf = true := rfl

/-! ### Triangle rasterizer fill pass (src/renderer/renderer_3d.rs)

The claims about the fill pass concern the per-pixel coverage test, depth
test and color interpolation, all downstream of the per-vertex transform;
the embedding therefore takes the transformed raster-space points (whose
x/y are integral `f32`s produced by `x_raster as i32 as f32`, modelled as
`ℤ`) together with the post-divide `z` as input. -/

/-- `edge_function` from src/renderer/renderer_3d.rs (on the integral
raster coordinates the renderer feeds it). -/
def edge_function (a b p : ℤ × ℤ) : ℤ :=
  -((p.1 - a.1) * (b.2 - a.2) - (p.2 - a.2) * (b.1 - a.1))

/-- A transformed vertex: raster x/y and the retained post-divide depth. -/
structure RPoint where
  x : ℤ
  y : ℤ
  z : RF
deriving DecidableEq, Repr

/-- A vertex color attribute (`Srgb`), exact rationals. -/
structure Col where
  red : ℚ
  green : ℚ
  blue : ℚ
deriving DecidableEq, Repr

/-- An output pixel of the 3D renderer's drawing iteration
(`Shape2D::Pixel { x, y, color }`), with `f32` color channels in `RF`. -/
structure ColorPixel where
  x : ℤ
  y : ℤ
  red : RF
  green : RF
  blue : RF
  alpha : RF
deriving DecidableEq, Repr

/-- The signed area `edge_function(p0, p1, p2)`. -/
def areaOf (p0 p1 p2 : RPoint) : ℤ :=
  edge_function (p0.x, p0.y) (p1.x, p1.y) (p2.x, p2.y)

/-- The three sub-edge values at a pixel. -/
def w0At (p1 p2 : RPoint) (x y : ℤ) : ℤ :=
  edge_function (p1.x, p1.y) (p2.x, p2.y) (x, y)

/-- Coverage test of the fill pass: all three edge values nonnegative. -/
def covered (p0 p1 p2 : RPoint) (x y : ℤ) : Prop :=
  0 ≤ w0At p1 p2 x y ∧ 0 ≤ w0At p2 p0 x y ∧ 0 ≤ w0At p0 p1 x y

instance (p0 p1 p2 : RPoint) (x y : ℤ) : Decidable (covered p0 p1 p2 x y) :=
  inferInstanceAs (Decidable (_ ∧ _ ∧ _))

/-- The perspective-correct interpolated depth
`1 / (w0/z0 + w1/z1 + w2/z2)` at a pixel, in IEEE arithmetic (the
division by the signed area is unguarded, exactly as in the source). -/
def zAt (p0 p1 p2 : RPoint) (x y : ℤ) : RF :=
  let area := areaOf p0 p1 p2
  let W0 := RF.div (.fin (w0At p1 p2 x y)) (.fin area)
  let W1 := RF.div (.fin (w0At p2 p0 x y)) (.fin area)
  let W2 := RF.div (.fin (w0At p0 p1 x y)) (.fin area)
  RF.div (.fin 1)
    ((((RF.div (.fin 1) p0.z).mul W0).add
      ((RF.div (.fin 1) p1.z).mul W1)).add
      ((RF.div (.fin 1) p2.z).mul W2))

/-- The perspective-corrected interpolated color
`(Σ wᵢ·cᵢ) · z` at a pixel. -/
def colorAt (p0 p1 p2 : RPoint) (c0 c1 c2 : Col) (x y : ℤ) : RF × RF × RF :=
  let area := areaOf p0 p1 p2
  let W0 := RF.div (.fin (w0At p1 p2 x y)) (.fin area)
  let W1 := RF.div (.fin (w0At p2 p0 x y)) (.fin area)
  let W2 := RF.div (.fin (w0At p0 p1 x y)) (.fin area)
  let z := zAt p0 p1 p2 x y
  ((((W0.mul (.fin c0.red)).add (W1.mul (.fin c1.red))).add
      (W2.mul (.fin c2.red))).mul z,
   (((W0.mul (.fin c0.green)).add (W1.mul (.fin c1.green))).add
      (W2.mul (.fin c2.green))).mul z,
   (((W0.mul (.fin c0.blue)).add (W1.mul (.fin c1.blue))).add
      (W2.mul (.fin c2.blue))).mul z)

/-- The body of the fill pass for one candidate pixel: sign test, then
depth test against `depth_buffer[y*width + x]`, updating the buffer and
emitting a fully opaque interpolated pixel when both pass. -/
def fillPixel (w : ℕ) (p0 p1 p2 : RPoint) (c0 c1 c2 : Col) (x y : ℤ)
    (depth : List RF) : Option ColorPixel × List RF :=
  if covered p0 p1 p2 x y then
    let z := zAt p0 p1 p2 x y
    let idx := (y * (w : ℤ) + x).toNat
    if RF.lt z (depth.getD idx RF.nan) then
      let c := colorAt p0 p1 p2 c0 c1 c2 x y
      (some ⟨x, y, c.1, c.2.1, c.2.2, .fin 1⟩, depth.set idx z)
    else (none, depth)
  else (none, depth)

/-- `lo..hi` as a list of integers (Rust's exclusive range). -/
def intRange (lo hi : ℤ) : List ℤ :=
  (List.range (hi - lo).toNat).map (fun i => lo + (i : ℤ))

/-- Candidate pixels of a triangle: the cartesian product of the
bounding-box ranges (x outer, y inner, both exclusive of the max), kept
when inside `[0,w) × [0,h)` (the `as u32` comparison of the source
rejects negatives the same way). -/
def fillCands (w h : ℕ) (p0 p1 p2 : RPoint) : List (ℤ × ℤ) :=
  let minX := min p0.x (min p1.x p2.x)
  let minY := min p0.y (min p1.y p2.y)
  let maxX := max p0.x (max p1.x p2.x)
  let maxY := max p0.y (max p1.y p2.y)
  ((intRange minX maxX).flatMap
    (fun x => (intRange minY maxY).map (fun y => (x, y)))).filter
    (fun c => decide (0 ≤ c.1 ∧ c.1 < (w : ℤ) ∧ 0 ≤ c.2 ∧ c.2 < (h : ℤ)))

/-- The fill pass of one triangle: fold `fillPixel` over the candidate
pixels, threading the depth buffer. -/
def fillTriangle (w h : ℕ) (p0 p1 p2 : RPoint) (c0 c1 c2 : Col)
    (depth : List RF) : List ColorPixel × List RF :=
  (fillCands w h p0 p1 p2).foldl
    (fun acc c =>
      let r := fillPixel w p0 p1 p2 c0 c1 c2 c.1 c.2 acc.2
      (acc.1 ++ r.1.toList, r.2))
    ([], depth)

/-- The fill pass over the index list; `points[t.i]`/`attributes[t.i]`
indexing is modelled with `Option`, `none` standing for the Rust panic. -/
def fillObjectM (w h : ℕ) (points : List RPoint) (attrs : List Col) :
    List (ℕ × ℕ × ℕ) → List RF → Option (List ColorPixel × List RF)
  | [], depth => some ([], depth)
  | t :: rest, depth => do
    let p0 ← points[t.1]?
    let p1 ← points[t.2.1]?
    let p2 ← points[t.2.2]?
    let a0 ← attrs[t.1]?
    let a1 ← attrs[t.2.1]?
    let a2 ← attrs[t.2.2]?
    let r := fillTriangle w h p0 p1 p2 a0 a1 a2 depth
    let rest2 ← fillObjectM w h points attrs rest r.2
    some (r.1 ++ rest2.1, rest2.2)

/-- Modelled from the spec: the wireframe overlay color
`Srgba::new(0.7, 0.5, 0.6, 1.0)` attached to the builder. -/
def wireColor : Col := ⟨7/10, 1/2, 3/5⟩

/-- Modelled from the spec: the colored drawing iteration consumed by the
3D renderer (its `Pixel { x, y, color }` and the `LineBuilder::color`
method are not under src/); per §4.3 of the spec, "a global color may be
attached to the builder and passed to every generator instance it
creates", so every Wu pixel carries the overlay color with the Wu 8-bit
coverage alpha re-normalized to `[0, 1]`. -/
def wirePixel (c : Col) : Pixel → ColorPixel
  | .normal x y => ⟨x, y, .fin c.red, .fin c.green, .fin c.blue, .fin 1⟩
  | .antiAliased x y a =>
      ⟨x, y, .fin c.red, .fin c.green, .fin c.blue, .fin ((a : ℚ) / 255)⟩

/-- The wireframe overlay of one triangle:
`LineBuilder::<WuLine>::new().color(..).from(p0).to(p1).to(p2).close().shape()`. -/
def wireTriangle (p0 p1 p2 : ℤ × ℤ) : List ColorPixel :=
  (LineBuilder.endPixels (fun a b => wuList a b)
    ((((LineBuilder.fromStart p0).to p1).to p2).close)).map
    (wirePixel wireColor)

/-- The wireframe pass over the index list, with `Option` for the panics. -/
def wireObjectM (points : List RPoint) :
    List (ℕ × ℕ × ℕ) → Option (List ColorPixel)
  | [] => some []
  | t :: rest => do
    let p0 ← points[t.1]?
    let p1 ← points[t.2.1]?
    let p2 ← points[t.2.2]?
    let rest2 ← wireObjectM points rest
    some (wireTriangle (p0.x, p0.y) (p1.x, p1.y) (p2.x, p2.y) ++ rest2)

/-- `Rasterizer::render` for one object, from the transformed points on:
a fresh depth buffer of `w*h` entries initialized to `+∞`, the fill pass,
then the wireframe shapes, concatenated in compositing order
(`[planes, lines]`). -/
def renderObjectM (w h : ℕ) (points : List RPoint) (attrs : List Col)
    (indices : List (ℕ × ℕ × ℕ)) : Option (List ColorPixel) := do
  let fill ← fillObjectM w h points attrs indices
    (List.replicate (w * h) RF.pinf)
  let wires ← wireObjectM points indices
  some (fill.1 ++ wires)

/-- Modelled from the spec: one source-over blend of the color-respecting
compositor consumed by the 3D renderer (not under src/):
`result = src·srcAlpha + dest·(1 − srcAlpha)` per channel (§4.6). -/
def blendRF (src : ColorPixel) (dest : RF × RF × RF) : RF × RF × RF :=
  ((src.red.mul src.alpha).add (dest.1.mul ((RF.fin 1).sub src.alpha)),
   (src.green.mul src.alpha).add (dest.2.1.mul ((RF.fin 1).sub src.alpha)),
   (src.blue.mul src.alpha).add (dest.2.2.mul ((RF.fin 1).sub src.alpha)))

/-- Modelled from the spec: the compositor clears the frame to opaque
black, then blends every in-bounds pixel of every shape in order. -/
def compositeFrame (w h : ℕ) (pixels : List ColorPixel) :
    ℤ → ℤ → RF × RF × RF :=
  pixels.foldl
    (fun fr px =>
      if 0 ≤ px.x ∧ px.x < (w : ℤ) ∧ 0 ≤ px.y ∧ px.y < (h : ℤ) then
        fun x y =>
          if x = px.x ∧ y = px.y then blendRF px (fr x y) else fr x y
      else fr)
    (fun _ _ => (RF.fin 0, RF.fin 0, RF.fin 0))

lemma fillObjectM_none (w h : ℕ) (points : List RPoint) (attrs : List Col)
    (indices : List (ℕ × ℕ × ℕ))
    (hbad : ∃ t ∈ indices, points.length ≤ t.1 ∨ points.length ≤ t.2.1 ∨
      points.length ≤ t.2.2 ∨ attrs.length ≤ t.1 ∨ attrs.length ≤ t.2.1 ∨
      attrs.length ≤ t.2.2) :
    ∀ depth, fillObjectM w h points attrs indices depth = none := by
  induction indices with
  | nil =>
    obtain ⟨t, ht, _⟩ := hbad
    simp at ht
  | cons t rest ih =>
    intro depth
    obtain ⟨t2, ht2, hbad2⟩ := hbad
    rcases List.mem_cons.1 ht2 with rfl | hmem
    · have hnone : points[t2.1]? = none ∨ points[t2.2.1]? = none ∨
          points[t2.2.2]? = none ∨ attrs[t2.1]? = none ∨
          attrs[t2.2.1]? = none ∨ attrs[t2.2.2]? = none := by
        rcases hbad2 with h | h | h | h | h | h
        · exact Or.inl (List.getElem?_eq_none h)
        · exact Or.inr (Or.inl (List.getElem?_eq_none h))
        · exact Or.inr (Or.inr (Or.inl (List.getElem?_eq_none h)))
        · exact Or.inr (Or.inr (Or.inr (Or.inl (List.getElem?_eq_none h))))
        · exact Or.inr (Or.inr (Or.inr (Or.inr (Or.inl
            (List.getElem?_eq_none h)))))
        · exact Or.inr (Or.inr (Or.inr (Or.inr (Or.inr
            (List.getElem?_eq_none h)))))
      cases hp0 : points[t2.1]? with
      | none => simp [fillObjectM, hp0]
      | some p0 =>
        cases hp1 : points[t2.2.1]? with
        | none => simp [fillObjectM, hp0, hp1]
        | some p1 =>
          cases hp2 : points[t2.2.2]? with
          | none => simp [fillObjectM, hp0, hp1, hp2]
          | some p2 =>
            cases ha0 : attrs[t2.1]? with
            | none => simp [fillObjectM, hp0, hp1, hp2, ha0]
            | some a0 =>
              cases ha1 : attrs[t2.2.1]? with
              | none => simp [fillObjectM, hp0, hp1, hp2, ha0, ha1]
              | some a1 =>
                cases ha2 : attrs[t2.2.2]? with
                | none => simp [fillObjectM, hp0, hp1, hp2, ha0, ha1, ha2]
                | some a2 =>
                  rcases hnone with h | h | h | h | h | h
                  · rw [hp0] at h
                    exact Option.noConfusion h
                  · rw [hp1] at h
                    exact Option.noConfusion h
                  · rw [hp2] at h
                    exact Option.noConfusion h
                  · rw [ha0] at h
                    exact Option.noConfusion h
                  · rw [ha1] at h
                    exact Option.noConfusion h
                  · rw [ha2] at h
                    exact Option.noConfusion h
    · have ihx := ih ⟨t2, hmem, hbad2⟩
      cases hp0 : points[t.1]? with
      | none => simp [fillObjectM, hp0]
      | some p0 =>
        cases hp1 : points[t.2.1]? with
        | none => simp [fillObjectM, hp0, hp1]
        | some p1 =>
          cases hp2 : points[t.2.2]? with
          | none => simp [fillObjectM, hp0, hp1, hp2]
          | some p2 =>
            cases ha0 : attrs[t.1]? with
            | none => simp [fillObjectM, hp0, hp1, hp2, ha0]
            | some a0 =>
              cases ha1 : attrs[t.2.1]? with
              | none => simp [fillObjectM, hp0, hp1, hp2, ha0, ha1]
              | some a1 =>
                cases ha2 : attrs[t.2.2]? with
                | none => simp [fillObjectM, hp0, hp1, hp2, ha0, ha1, ha2]
                | some a2 =>
                  simp [fillObjectM, hp0, hp1, hp2, ha0, ha1, ha2, ihx]

/-- C6: a mesh whose index list contains a triangle with a vertex or
attribute index out of bounds makes `Rasterizer::render` fail fast at the
out-of-bounds lookup (the Rust panic, modelled as `none`) instead of
producing any output. -/
theorem invalid_index_fails_fast (w h : ℕ) (points : List RPoint)
    (attrs : List Col) (indices : List (ℕ × ℕ × ℕ))
    (hbad : ∃ t ∈ indices, points.length ≤ t.1 ∨ points.length ≤ t.2.1 ∨
      points.length ≤ t.2.2 ∨ attrs.length ≤ t.1 ∨ attrs.length ≤ t.2.1 ∨
      attrs.length ≤ t.2.2) :
    renderObjectM w h points attrs indices = none := by
  unfold renderObjectM
  rw [fillObjectM_none w h points attrs indices hbad]
  rfl

/-- Witness for `invalid_index_fails_fast`: one point but a triangle
referencing index 5. -/
theorem invalid_index_fails_fast_witness :
    renderObjectM 4 4 [⟨0, 0, RF.fin 1⟩] [⟨1, 1, 1⟩] [(5, 0, 0)] = none :=
  invalid_index_fails_fast 4 4 [⟨0, 0, RF.fin 1⟩] [⟨1, 1, 1⟩] [(5, 0, 0)]
    ⟨(5, 0, 0), by simp, by simp⟩

lemma edge_sum (p0 p1 p2 : RPoint) (x y : ℤ) :
    w0At p1 p2 x y + w0At p2 p0 x y + w0At p0 p1 x y = areaOf p0 p1 p2 := by
  unfold w0At areaOf edge_function
  ring

lemma fillPixel_degenerate (w : ℕ) (p0 p1 p2 : RPoint) (c0 c1 c2 : Col)
    (x y : ℤ) (depth : List RF) (harea : areaOf p0 p1 p2 = 0) :
    fillPixel w p0 p1 p2 c0 c1 c2 x y depth = (none, depth) := by
  unfold fillPixel
  by_cases hcov : covered p0 p1 p2 x y
  · rw [if_pos hcov]
    obtain ⟨h0, h1, h2⟩ := hcov
    have hsum := edge_sum p0 p1 p2 x y
    rw [harea] at hsum
    have hw0 : w0At p1 p2 x y = 0 := by omega
    have hw1 : w0At p2 p0 x y = 0 := by omega
    have hw2 : w0At p0 p1 x y = 0 := by omega
    have hz : zAt p0 p1 p2 x y = RF.nan := by
      unfold zAt
      simp [harea, hw0, hw1, hw2, RF.div]
    rw [hz]
    simp [RF.nan_lt]
  · rw [if_neg hcov]

lemma fillTriangle_degenerate (w h : ℕ) (p0 p1 p2 : RPoint) (c0 c1 c2 : Col)
    (depth : List RF) (harea : areaOf p0 p1 p2 = 0) :
    fillTriangle w h p0 p1 p2 c0 c1 c2 depth = ([], depth) := by
  unfold fillTriangle
  have hfold : ∀ (cands : List (ℤ × ℤ)) (acc : List ColorPixel),
      cands.foldl
        (fun acc c =>
          let r := fillPixel w p0 p1 p2 c0 c1 c2 c.1 c.2 acc.2
          (acc.1 ++ r.1.toList, r.2))
        (acc, depth) = (acc, depth) := by
    intro cands
    induction cands with
    | nil => intro acc; rfl
    | cons c cs ih =>
      intro acc
      simp only [List.foldl_cons]
      rw [fillPixel_degenerate w p0 p1 p2 c0 c1 c2 c.1 c.2 depth harea]
      simp only [Option.toList_none, List.append_nil]
      exact ih acc
  exact hfold _ []

/-- C3 (amended): a zero-area triangle raises no arithmetic fault, but
the division by the zero area is not guarded: it is performed in IEEE
arithmetic, where every covered candidate pixel gets `0/0 = NaN` weights
and a `NaN` interpolated depth, so the depth test (`NaN < stored` is
false) rejects it and the fill pass contributes no pixels and leaves the
depth buffer untouched.  The triangle is not skipped as a whole: its
wireframe edges are still drawn (a Wu line always emits its four buffered
endpoint pixels, so each edge contributes pixels). -/
theorem degenerate_triangle_spec :
    (∀ (w h : ℕ) (p0 p1 p2 : RPoint) (c0 c1 c2 : Col) (depth : List RF),
      areaOf p0 p1 p2 = 0 →
      fillTriangle w h p0 p1 p2 c0 c1 c2 depth = ([], depth)) ∧
    (∀ f t : ℤ × ℤ, wuList f t ≠ []) := by
  constructor
  · intro w h p0 p1 p2 c0 c1 c2 depth harea
    exact fillTriangle_degenerate w h p0 p1 p2 c0 c1 c2 depth harea
  · exact wuList_ne_nil

/-- Witness for `degenerate_triangle_spec` on the colinear triangle
`(0,0), (2,2), (4,4)`. -/
theorem degenerate_triangle_spec_witness :
    fillTriangle 8 8 ⟨0, 0, RF.fin 1⟩ ⟨2, 2, RF.fin 1⟩ ⟨4, 4, RF.fin 1⟩
      ⟨1, 0, 0⟩ ⟨1, 0, 0⟩ ⟨1, 0, 0⟩ (List.replicate 64 RF.pinf) =
      ([], List.replicate 64 RF.pinf) :=
  degenerate_triangle_spec.1 8 8 _ _ _ _ _ _ _ (by decide)

/-- C3 (counterexample): the zero-area triangle `(0,0), (2,2), (4,4)` is
not "skipped, contributing no pixels to the output": its render output
exists (no arithmetic fault) and is nonempty, because the wireframe pass
still draws its edges. -/
theorem degenerate_triangle_cex :
    areaOf ⟨0, 0, RF.fin 1⟩ ⟨2, 2, RF.fin 1⟩ ⟨4, 4, RF.fin 1⟩ = 0 ∧
    renderObjectM 8 8 [⟨0, 0, RF.fin 1⟩, ⟨2, 2, RF.fin 1⟩, ⟨4, 4, RF.fin 1⟩]
      [⟨1, 0, 0⟩, ⟨1, 0, 0⟩, ⟨1, 0, 0⟩] [(0, 1, 2)] ≠ none ∧
    renderObjectM 8 8 [⟨0, 0, RF.fin 1⟩, ⟨2, 2, RF.fin 1⟩, ⟨4, 4, RF.fin 1⟩]
      [⟨1, 0, 0⟩, ⟨1, 0, 0⟩, ⟨1, 0, 0⟩] [(0, 1, 2)] ≠ some [] := by
  refine ⟨by decide, ?_, ?_⟩ <;> decide

/-- The pixel the fill pass emits for a passing fragment. -/
def fragPixel (p0 p1 p2 : RPoint) (c0 c1 c2 : Col) (x y : ℤ) : ColorPixel :=
  ⟨x, y, (colorAt p0 p1 p2 c0 c1 c2 x y).1,
   (colorAt p0 p1 p2 c0 c1 c2 x y).2.1,
   (colorAt p0 p1 p2 c0 c1 c2 x y).2.2, .fin 1⟩

/-- The fill-pass emissions at one pixel for two triangles processed in
order, threading the depth buffer from the first to the second. -/
def fillTwoAt (w : ℕ) (p0 p1 p2 : RPoint) (c0 c1 c2 : Col)
    (q0 q1 q2 : RPoint) (d0 d1 d2 : Col) (x y : ℤ) (depth : List RF) :
    List ColorPixel :=
  let r1 := fillPixel w p0 p1 p2 c0 c1 c2 x y depth
  let r2 := fillPixel w q0 q1 q2 d0 d1 d2 x y r1.2
  r1.1.toList ++ r2.1.toList

lemma getD_set_self (l : List RF) (i : ℕ) (a d : RF) (h : i < l.length) :
    (l.set i a).getD i d = a := by
  rw [List.getD_eq_getElem?_getD, List.getElem?_set_self', List.getElem?_eq_getElem h]
  rfl

lemma fillPixel_eq_some (w : ℕ) (p0 p1 p2 : RPoint) (c0 c1 c2 : Col)
    (x y : ℤ) (depth : List RF) (hcov : covered p0 p1 p2 x y)
    (hlt : RF.lt (zAt p0 p1 p2 x y)
      (depth.getD ((y * (w : ℤ) + x).toNat) RF.nan) = true) :
    fillPixel w p0 p1 p2 c0 c1 c2 x y depth =
      (some (fragPixel p0 p1 p2 c0 c1 c2 x y),
       depth.set ((y * (w : ℤ) + x).toNat) (zAt p0 p1 p2 x y)) := by
  unfold fillPixel fragPixel
  rw [if_pos hcov, if_pos hlt]

lemma fillPixel_eq_none (w : ℕ) (p0 p1 p2 : RPoint) (c0 c1 c2 : Col)
    (x y : ℤ) (depth : List RF)
    (hlt : RF.lt (zAt p0 p1 p2 x y)
      (depth.getD ((y * (w : ℤ) + x).toNat) RF.nan) = false) :
    fillPixel w p0 p1 p2 c0 c1 c2 x y depth = (none, depth) := by
  unfold fillPixel
  by_cases hcov : covered p0 p1 p2 x y
  · rw [if_pos hcov, if_neg (by simp only [hlt]; decide)]
  · rw [if_neg hcov]

lemma zAt_nan_of_degenerate {p0 p1 p2 : RPoint} {x y : ℤ}
    (hcov : covered p0 p1 p2 x y) (harea : areaOf p0 p1 p2 = 0) :
    zAt p0 p1 p2 x y = RF.nan := by
  obtain ⟨h0, h1, h2⟩ := hcov
  have hsum := edge_sum p0 p1 p2 x y
  rw [harea] at hsum
  have hw0 : w0At p1 p2 x y = 0 := by omega
  have hw1 : w0At p2 p0 x y = 0 := by omega
  have hw2 : w0At p0 p1 x y = 0 := by omega
  unfold zAt
  simp [harea, hw0, hw1, hw2, RF.div]

lemma colorAt_fin (p0 p1 p2 : RPoint) (c0 c1 c2 : Col) (x y : ℤ) (zq : ℚ)
    (harea : areaOf p0 p1 p2 ≠ 0) (hz : zAt p0 p1 p2 x y = .fin zq) :
    ∃ a b c, colorAt p0 p1 p2 c0 c1 c2 x y = (.fin a, .fin b, .fin c) := by
  have hc : ((areaOf p0 p1 p2 : ℤ) : ℚ) ≠ 0 := Int.cast_ne_zero.2 harea
  simp only [colorAt]
  rw [hz]
  have hW : ∀ n : ℤ, RF.div (.fin (n : ℚ)) (.fin ((areaOf p0 p1 p2 : ℤ) : ℚ)) =
      .fin ((n : ℚ) / ((areaOf p0 p1 p2 : ℤ) : ℚ)) := by
    intro n
    simp [RF.div, hc]
  rw [hW, hW, hW]
  exact ⟨_, _, _, rfl⟩

lemma blendRF_opaque (px : ColorPixel) (d1 d2 d3 : ℚ) (a b c : ℚ)
    (ha : px.alpha = .fin 1) (hr : px.red = .fin a) (hg : px.green = .fin b)
    (hb : px.blue = .fin c) :
    blendRF px (.fin d1, .fin d2, .fin d3) = (px.red, px.green, px.blue) := by
  unfold blendRF
  rw [ha, hr, hg, hb]
  show (((RF.fin a).mul (.fin 1)).add ((RF.fin d1).mul ((RF.fin 1).sub (.fin 1))),
    ((RF.fin b).mul (.fin 1)).add ((RF.fin d2).mul ((RF.fin 1).sub (.fin 1))),
    ((RF.fin c).mul (.fin 1)).add ((RF.fin d3).mul ((RF.fin 1).sub (.fin 1)))) = _
  simp [RF.mul, RF.add, RF.sub, RF.neg]

lemma compositeFrame_fin_at (w h : ℕ) (x y : ℤ) :
    ∀ l : List ColorPixel,
      (∀ px ∈ l, px.alpha = RF.fin 1 ∧ (∃ a, px.red = RF.fin a) ∧
        (∃ a, px.green = RF.fin a) ∧ (∃ a, px.blue = RF.fin a)) →
      ∃ a b c, compositeFrame w h l x y = (RF.fin a, RF.fin b, RF.fin c) := by
  intro l
  induction l using List.reverseRecOn with
  | nil => exact fun _ => ⟨0, 0, 0, rfl⟩
  | append_singleton l0 b ih =>
    intro hall
    obtain ⟨hba, ⟨ra, hbr⟩, ⟨ga, hbg⟩, ⟨ba, hbb⟩⟩ := hall b (by simp)
    obtain ⟨pa, pb, pc, hp⟩ := ih (fun px hm => hall px (by simp [hm]))
    unfold compositeFrame at hp ⊢
    rw [List.foldl_append]
    simp only [List.foldl_cons, List.foldl_nil]
    by_cases hin : 0 ≤ b.x ∧ b.x < (w : ℤ) ∧ 0 ≤ b.y ∧ b.y < (h : ℤ)
    · rw [if_pos hin]
      by_cases hxy : x = b.x ∧ y = b.y
      · rw [if_pos hxy, hp, blendRF_opaque b pa pb pc ra ga ba hba hbr hbg hbb]
        exact ⟨ra, ga, ba, by rw [hbr, hbg, hbb]⟩
      · rw [if_neg hxy]
        exact ⟨pa, pb, pc, hp⟩
    · rw [if_neg hin]
      exact ⟨pa, pb, pc, hp⟩

lemma compositeFrame_last_opaque (w h : ℕ) (x y : ℤ) (l : List ColorPixel)
    (f : ColorPixel)
    (hall : ∀ px ∈ l, px.x = x ∧ px.y = y ∧ px.alpha = RF.fin 1 ∧
      (∃ a, px.red = RF.fin a) ∧ (∃ a, px.green = RF.fin a) ∧
      (∃ a, px.blue = RF.fin a))
    (hin : 0 ≤ x ∧ x < (w : ℤ) ∧ 0 ≤ y ∧ y < (h : ℤ))
    (hlast : l.getLast? = some f) :
    compositeFrame w h l x y = (f.red, f.green, f.blue) := by
  induction l using List.reverseRecOn with
  | nil => simp at hlast
  | append_singleton l0 b ih =>
    have hfb : b = f := by simpa using hlast
    subst hfb
    obtain ⟨hbx, hby, hba, ⟨ra, hbr⟩, ⟨ga, hbg⟩, ⟨ba, hbb⟩⟩ := hall b (by simp)
    obtain ⟨pa, pb, pc, hp⟩ :=
      compositeFrame_fin_at w h x y l0 (fun px hm => (hall px (by simp [hm])).2.2)
    unfold compositeFrame at hp ⊢
    rw [List.foldl_append]
    simp only [List.foldl_cons, List.foldl_nil]
    have hin2 : 0 ≤ b.x ∧ b.x < (w : ℤ) ∧ 0 ≤ b.y ∧ b.y < (h : ℤ) := by
      rw [hbx, hby]; exact hin
    rw [if_pos hin2]
    rw [if_pos ⟨hbx.symm, hby.symm⟩, hp,
      blendRF_opaque b pa pb pc ra ga ba hba hbr hbg hbb]

lemma fillTwoAt_eval (w : ℕ) (p0 p1 p2 q0 q1 q2 : RPoint)
    (c0 c1 c2 d0 d1 d2 : Col) (x y : ℤ) (z1 z2 : ℚ) (depth : List RF)
    (hidx : (y * (w : ℤ) + x).toNat < depth.length)
    (hinit : depth.getD ((y * (w : ℤ) + x).toNat) RF.nan = RF.pinf)
    (hcov1 : covered p0 p1 p2 x y) (hcov2 : covered q0 q1 q2 x y)
    (hz1 : zAt p0 p1 p2 x y = .fin z1) (hz2 : zAt q0 q1 q2 x y = .fin z2) :
    fillTwoAt w p0 p1 p2 c0 c1 c2 q0 q1 q2 d0 d1 d2 x y depth =
      if z2 < z1 then
        [fragPixel p0 p1 p2 c0 c1 c2 x y, fragPixel q0 q1 q2 d0 d1 d2 x y]
      else [fragPixel p0 p1 p2 c0 c1 c2 x y] := by
  have e1 := fillPixel_eq_some w p0 p1 p2 c0 c1 c2 x y depth hcov1
    (by rw [hz1, hinit]; exact RF.fin_lt_pinf z1)
  have hd1 : (depth.set ((y * (w : ℤ) + x).toNat) (zAt p0 p1 p2 x y)).getD
      ((y * (w : ℤ) + x).toNat) RF.nan = RF.fin z1 := by
    rw [getD_set_self _ _ _ _ hidx, hz1]
  by_cases h21 : z2 < z1
  · rw [if_pos h21]
    have e2 := fillPixel_eq_some w q0 q1 q2 d0 d1 d2 x y
      (depth.set ((y * (w : ℤ) + x).toNat) (zAt p0 p1 p2 x y)) hcov2
      (by rw [hz2, hd1]; simp [RF.lt, h21])
    simp only [fillTwoAt]
    rw [e1]
    dsimp only
    rw [e2]
    rfl
  · rw [if_neg h21]
    have e2 := fillPixel_eq_none w q0 q1 q2 d0 d1 d2 x y
      (depth.set ((y * (w : ℤ) + x).toNat) (zAt p0 p1 p2 x y))
      (by rw [hz2, hd1]; simp [RF.lt, h21])
    simp only [fillTwoAt]
    rw [e1]
    dsimp only
    rw [e2]
    rfl

/-- **C1** (corrected). For a pixel covered by two triangles whose
perspective-correct depths there are distinct finite values z1 ≠ z2, the
fill pass of `Rasterizer::render` emits, in both processing orders, a
pixel list at that location whose *last* (and hence winning, under the
in-order source-over compositor, every fill pixel being fully opaque)
element is the nearer triangle's fragment, so the composited fill color
is the nearer triangle's color regardless of order; moreover every
`fillPixel` call either leaves the depth buffer unchanged or overwrites
exactly the entry at the pixel's index with the fragment depth, and does
the latter only when that depth is strictly `<` the stored value, and
`renderObjectM` starts the fill pass from a buffer of `w*h` copies of
`+∞`. The claim's unqualified "final composited color" is *not* true of
the whole renderer: the wireframe pass is drawn after the fill pass and
can overdraw the nearer triangle's color (see the counterexample). -/
theorem depth_order_spec (w h : ℕ) (p0 p1 p2 q0 q1 q2 : RPoint)
    (c0 c1 c2 d0 d1 d2 : Col) (x y : ℤ) (z1 z2 : ℚ) (depth : List RF)
    (nf : ColorPixel)
    (hx0 : 0 ≤ x) (hxw : x < (w : ℤ)) (hy0 : 0 ≤ y) (hyh : y < (h : ℤ))
    (hlen : depth.length = w * h)
    (hinit : depth.getD ((y * (w : ℤ) + x).toNat) RF.nan = RF.pinf)
    (hcov1 : covered p0 p1 p2 x y) (hcov2 : covered q0 q1 q2 x y)
    (hz1 : zAt p0 p1 p2 x y = .fin z1) (hz2 : zAt q0 q1 q2 x y = .fin z2)
    (hne : z1 ≠ z2)
    (hnf : nf = if z1 < z2 then fragPixel p0 p1 p2 c0 c1 c2 x y
      else fragPixel q0 q1 q2 d0 d1 d2 x y) :
    (fillTwoAt w p0 p1 p2 c0 c1 c2 q0 q1 q2 d0 d1 d2 x y depth).getLast? =
      some nf ∧
    (fillTwoAt w q0 q1 q2 d0 d1 d2 p0 p1 p2 c0 c1 c2 x y depth).getLast? =
      some nf ∧
    (∀ px ∈ fillTwoAt w p0 p1 p2 c0 c1 c2 q0 q1 q2 d0 d1 d2 x y depth,
      px.alpha = RF.fin 1) ∧
    compositeFrame w h
      (fillTwoAt w p0 p1 p2 c0 c1 c2 q0 q1 q2 d0 d1 d2 x y depth) x y =
      (nf.red, nf.green, nf.blue) ∧
    compositeFrame w h
      (fillTwoAt w q0 q1 q2 d0 d1 d2 p0 p1 p2 c0 c1 c2 x y depth) x y =
      (nf.red, nf.green, nf.blue) ∧
    (∀ (w2 : ℕ) (u0 u1 u2 : RPoint) (e0 e1 e2 : Col) (x2 y2 : ℤ)
        (dep : List RF),
      (fillPixel w2 u0 u1 u2 e0 e1 e2 x2 y2 dep).2 = dep ∨
      ((fillPixel w2 u0 u1 u2 e0 e1 e2 x2 y2 dep).2 =
          dep.set ((y2 * (w2 : ℤ) + x2).toNat) (zAt u0 u1 u2 x2 y2) ∧
        RF.lt (zAt u0 u1 u2 x2 y2)
          (dep.getD ((y2 * (w2 : ℤ) + x2).toNat) RF.nan) = true)) ∧
    (∀ (pts : List RPoint) (ats : List Col) (inds : List (ℕ × ℕ × ℕ)),
      renderObjectM w h pts ats inds =
        (fillObjectM w h pts ats inds (List.replicate (w * h) RF.pinf)).bind
          (fun fill => (wireObjectM pts inds).bind
            (fun wires => some (fill.1 ++ wires)))) := by
  have hwnn : (0 : ℤ) ≤ (w : ℤ) := by positivity
  have hidx : (y * (w : ℤ) + x).toNat < depth.length := by
    rw [hlen]
    have h0 : 0 ≤ y * (w : ℤ) + x := add_nonneg (mul_nonneg hy0 hwnn) hx0
    have h1 : y * (w : ℤ) + x < ((w * h : ℕ) : ℤ) := by
      push_cast
      nlinarith [mul_le_mul_of_nonneg_right
        (show y ≤ (h : ℤ) - 1 by omega) hwnn]
    generalize hq : y * (w : ℤ) + x = A at h0 h1
    omega
  have harea1 : areaOf p0 p1 p2 ≠ 0 := by
    intro h0
    rw [zAt_nan_of_degenerate hcov1 h0] at hz1
    exact RF.noConfusion hz1
  have harea2 : areaOf q0 q1 q2 ≠ 0 := by
    intro h0
    rw [zAt_nan_of_degenerate hcov2 h0] at hz2
    exact RF.noConfusion hz2
  obtain ⟨ra1, ga1, ba1, hcol1⟩ :=
    colorAt_fin p0 p1 p2 c0 c1 c2 x y z1 harea1 hz1
  obtain ⟨ra2, ga2, ba2, hcol2⟩ :=
    colorAt_fin q0 q1 q2 d0 d1 d2 x y z2 harea2 hz2
  have hprop1 : (fragPixel p0 p1 p2 c0 c1 c2 x y).x = x ∧
      (fragPixel p0 p1 p2 c0 c1 c2 x y).y = y ∧
      (fragPixel p0 p1 p2 c0 c1 c2 x y).alpha = RF.fin 1 ∧
      (∃ a, (fragPixel p0 p1 p2 c0 c1 c2 x y).red = RF.fin a) ∧
      (∃ a, (fragPixel p0 p1 p2 c0 c1 c2 x y).green = RF.fin a) ∧
      (∃ a, (fragPixel p0 p1 p2 c0 c1 c2 x y).blue = RF.fin a) := by
    refine ⟨rfl, rfl, rfl, ⟨ra1, ?_⟩, ⟨ga1, ?_⟩, ⟨ba1, ?_⟩⟩ <;>
      simp [fragPixel, hcol1]
  have hprop2 : (fragPixel q0 q1 q2 d0 d1 d2 x y).x = x ∧
      (fragPixel q0 q1 q2 d0 d1 d2 x y).y = y ∧
      (fragPixel q0 q1 q2 d0 d1 d2 x y).alpha = RF.fin 1 ∧
      (∃ a, (fragPixel q0 q1 q2 d0 d1 d2 x y).red = RF.fin a) ∧
      (∃ a, (fragPixel q0 q1 q2 d0 d1 d2 x y).green = RF.fin a) ∧
      (∃ a, (fragPixel q0 q1 q2 d0 d1 d2 x y).blue = RF.fin a) := by
    refine ⟨rfl, rfl, rfl, ⟨ra2, ?_⟩, ⟨ga2, ?_⟩, ⟨ba2, ?_⟩⟩ <;>
      simp [fragPixel, hcol2]
  have hA := fillTwoAt_eval w p0 p1 p2 q0 q1 q2 c0 c1 c2 d0 d1 d2 x y z1 z2
    depth hidx hinit hcov1 hcov2 hz1 hz2
  have hB := fillTwoAt_eval w q0 q1 q2 p0 p1 p2 d0 d1 d2 c0 c1 c2 x y z2 z1
    depth hidx hinit hcov2 hcov1 hz2 hz1
  have hrule : ∀ (w2 : ℕ) (u0 u1 u2 : RPoint) (e0 e1 e2 : Col) (x2 y2 : ℤ)
      (dep : List RF),
      (fillPixel w2 u0 u1 u2 e0 e1 e2 x2 y2 dep).2 = dep ∨
      ((fillPixel w2 u0 u1 u2 e0 e1 e2 x2 y2 dep).2 =
          dep.set ((y2 * (w2 : ℤ) + x2).toNat) (zAt u0 u1 u2 x2 y2) ∧
        RF.lt (zAt u0 u1 u2 x2 y2)
          (dep.getD ((y2 * (w2 : ℤ) + x2).toNat) RF.nan) = true) := by
    intro w2 u0 u1 u2 e0 e1 e2 x2 y2 dep
    simp only [fillPixel]
    by_cases hc : covered u0 u1 u2 x2 y2
    · rw [if_pos hc]
      by_cases hl : RF.lt (zAt u0 u1 u2 x2 y2)
          (dep.getD ((y2 * (w2 : ℤ) + x2).toNat) RF.nan) = true
      · rw [if_pos hl]
        exact Or.inr ⟨rfl, hl⟩
      · rw [if_neg hl]
        exact Or.inl rfl
    · rw [if_neg hc]
      exact Or.inl rfl
  have hdo : ∀ (pts : List RPoint) (ats : List Col)
      (inds : List (ℕ × ℕ × ℕ)),
      renderObjectM w h pts ats inds =
        (fillObjectM w h pts ats inds (List.replicate (w * h) RF.pinf)).bind
          (fun fill => (wireObjectM pts inds).bind
            (fun wires => some (fill.1 ++ wires))) :=
    fun _ _ _ => rfl
  rcases lt_or_gt_of_ne hne with h12 | h21
  · rw [if_pos h12] at hnf
    subst hnf
    rw [if_neg (by linarith)] at hA
    rw [if_pos h12] at hB
    refine ⟨?_, ?_, ?_, ?_, ?_, hrule, hdo⟩
    · rw [hA]; rfl
    · rw [hB]; rfl
    · intro px hpx
      rw [hA, List.mem_singleton] at hpx
      subst hpx
      exact hprop1.2.2.1
    · rw [hA]
      refine compositeFrame_last_opaque w h x y _ _ ?_ ⟨hx0, hxw, hy0, hyh⟩
        (by rfl)
      intro px hpx
      rw [List.mem_singleton] at hpx
      subst hpx
      exact hprop1
    · rw [hB]
      refine compositeFrame_last_opaque w h x y _ _ ?_ ⟨hx0, hxw, hy0, hyh⟩
        (by rfl)
      intro px hpx
      rcases List.mem_pair.mp hpx with h2 | h1
      · subst h2; exact hprop2
      · subst h1; exact hprop1
  · rw [if_neg (by intro h; exact absurd h (by linarith))] at hnf
    subst hnf
    rw [if_pos h21] at hA
    rw [if_neg (by linarith)] at hB
    refine ⟨?_, ?_, ?_, ?_, ?_, hrule, hdo⟩
    · rw [hA]; rfl
    · rw [hB]; rfl
    · intro px hpx
      rw [hA] at hpx
      rcases List.mem_pair.mp hpx with h1 | h2
      · subst h1; exact hprop1.2.2.1
      · subst h2; exact hprop2.2.2.1
    · rw [hA]
      refine compositeFrame_last_opaque w h x y _ _ ?_ ⟨hx0, hxw, hy0, hyh⟩
        (by rfl)
      intro px hpx
      rcases List.mem_pair.mp hpx with h1 | h2
      · subst h1; exact hprop1
      · subst h2; exact hprop2
    · rw [hB]
      refine compositeFrame_last_opaque w h x y _ _ ?_ ⟨hx0, hxw, hy0, hyh⟩
        (by rfl)
      intro px hpx
      rw [List.mem_singleton] at hpx
      subst hpx
      exact hprop2

theorem depth_order_spec_witness :
    (fillTwoAt 8 ⟨2, 2, .fin 1⟩ ⟨6, 2, .fin 1⟩ ⟨2, 6, .fin 1⟩ ⟨1, 0, 0⟩
        ⟨1, 0, 0⟩ ⟨1, 0, 0⟩ ⟨1, 1, .fin 2⟩ ⟨5, 1, .fin 2⟩ ⟨1, 5, .fin 2⟩
        ⟨0, 1, 0⟩ ⟨0, 1, 0⟩ ⟨0, 1, 0⟩ 2 3
        (List.replicate 64 RF.pinf)).getLast? =
      some (fragPixel ⟨2, 2, .fin 1⟩ ⟨6, 2, .fin 1⟩ ⟨2, 6, .fin 1⟩ ⟨1, 0, 0⟩
        ⟨1, 0, 0⟩ ⟨1, 0, 0⟩ 2 3) ∧
    (fillTwoAt 8 ⟨1, 1, .fin 2⟩ ⟨5, 1, .fin 2⟩ ⟨1, 5, .fin 2⟩ ⟨0, 1, 0⟩
        ⟨0, 1, 0⟩ ⟨0, 1, 0⟩ ⟨2, 2, .fin 1⟩ ⟨6, 2, .fin 1⟩ ⟨2, 6, .fin 1⟩
        ⟨1, 0, 0⟩ ⟨1, 0, 0⟩ ⟨1, 0, 0⟩ 2 3
        (List.replicate 64 RF.pinf)).getLast? =
      some (fragPixel ⟨2, 2, .fin 1⟩ ⟨6, 2, .fin 1⟩ ⟨2, 6, .fin 1⟩ ⟨1, 0, 0⟩
        ⟨1, 0, 0⟩ ⟨1, 0, 0⟩ 2 3) ∧
    compositeFrame 8 8
      (fillTwoAt 8 ⟨2, 2, .fin 1⟩ ⟨6, 2, .fin 1⟩ ⟨2, 6, .fin 1⟩ ⟨1, 0, 0⟩
        ⟨1, 0, 0⟩ ⟨1, 0, 0⟩ ⟨1, 1, .fin 2⟩ ⟨5, 1, .fin 2⟩ ⟨1, 5, .fin 2⟩
        ⟨0, 1, 0⟩ ⟨0, 1, 0⟩ ⟨0, 1, 0⟩ 2 3 (List.replicate 64 RF.pinf)) 2 3 =
      ((fragPixel ⟨2, 2, .fin 1⟩ ⟨6, 2, .fin 1⟩ ⟨2, 6, .fin 1⟩ ⟨1, 0, 0⟩
        ⟨1, 0, 0⟩ ⟨1, 0, 0⟩ 2 3).red,
       (fragPixel ⟨2, 2, .fin 1⟩ ⟨6, 2, .fin 1⟩ ⟨2, 6, .fin 1⟩ ⟨1, 0, 0⟩
        ⟨1, 0, 0⟩ ⟨1, 0, 0⟩ 2 3).green,
       (fragPixel ⟨2, 2, .fin 1⟩ ⟨6, 2, .fin 1⟩ ⟨2, 6, .fin 1⟩ ⟨1, 0, 0⟩
        ⟨1, 0, 0⟩ ⟨1, 0, 0⟩ 2 3).blue) ∧
    compositeFrame 8 8
      (fillTwoAt 8 ⟨1, 1, .fin 2⟩ ⟨5, 1, .fin 2⟩ ⟨1, 5, .fin 2⟩ ⟨0, 1, 0⟩
        ⟨0, 1, 0⟩ ⟨0, 1, 0⟩ ⟨2, 2, .fin 1⟩ ⟨6, 2, .fin 1⟩ ⟨2, 6, .fin 1⟩
        ⟨1, 0, 0⟩ ⟨1, 0, 0⟩ ⟨1, 0, 0⟩ 2 3 (List.replicate 64 RF.pinf)) 2 3 =
      ((fragPixel ⟨2, 2, .fin 1⟩ ⟨6, 2, .fin 1⟩ ⟨2, 6, .fin 1⟩ ⟨1, 0, 0⟩
        ⟨1, 0, 0⟩ ⟨1, 0, 0⟩ 2 3).red,
       (fragPixel ⟨2, 2, .fin 1⟩ ⟨6, 2, .fin 1⟩ ⟨2, 6, .fin 1⟩ ⟨1, 0, 0⟩
        ⟨1, 0, 0⟩ ⟨1, 0, 0⟩ 2 3).green,
       (fragPixel ⟨2, 2, .fin 1⟩ ⟨6, 2, .fin 1⟩ ⟨2, 6, .fin 1⟩ ⟨1, 0, 0⟩
        ⟨1, 0, 0⟩ ⟨1, 0, 0⟩ 2 3).blue) := by
  have H := depth_order_spec 8 8 ⟨2, 2, .fin 1⟩ ⟨6, 2, .fin 1⟩ ⟨2, 6, .fin 1⟩
    ⟨1, 1, .fin 2⟩ ⟨5, 1, .fin 2⟩ ⟨1, 5, .fin 2⟩ ⟨1, 0, 0⟩ ⟨1, 0, 0⟩
    ⟨1, 0, 0⟩ ⟨0, 1, 0⟩ ⟨0, 1, 0⟩ ⟨0, 1, 0⟩ 2 3 1 2
    (List.replicate 64 RF.pinf)
    (fragPixel ⟨2, 2, .fin 1⟩ ⟨6, 2, .fin 1⟩ ⟨2, 6, .fin 1⟩ ⟨1, 0, 0⟩
      ⟨1, 0, 0⟩ ⟨1, 0, 0⟩ 2 3)
    (by decide) (by decide) (by decide) (by decide) (by decide) (by decide)
    (by decide) (by decide)
    (by norm_num [zAt, areaOf, w0At, edge_function, RF.div, RF.mul, RF.add])
    (by norm_num [zAt, areaOf, w0At, edge_function, RF.div, RF.mul, RF.add])
    (by norm_num) (by norm_num)
  exact ⟨H.1, H.2.1, H.2.2.2.1, H.2.2.2.2.1⟩

/-- Counterexample to the unqualified claim: at pixel (2,3) of an 8×8
frame, the triangle with vertices (2,2),(6,2),(2,6) (depth 1, red) and
the triangle (1,1),(5,1),(1,5) (depth 2, green) overlap, the red one is
strictly nearer and its interpolated color there is pure red — yet the
frame `Rasterizer::render` hands to the compositor does *not* composite
to red at (2,3), because the wireframe pass (drawn after all fill
pixels) puts a fully-opaque wireframe-colored pixel there. -/
theorem depth_claim_cex :
    covered ⟨2, 2, .fin 1⟩ ⟨6, 2, .fin 1⟩ ⟨2, 6, .fin 1⟩ 2 3 ∧
    covered ⟨1, 1, .fin 2⟩ ⟨5, 1, .fin 2⟩ ⟨1, 5, .fin 2⟩ 2 3 ∧
    zAt ⟨2, 2, .fin 1⟩ ⟨6, 2, .fin 1⟩ ⟨2, 6, .fin 1⟩ 2 3 = .fin 1 ∧
    zAt ⟨1, 1, .fin 2⟩ ⟨5, 1, .fin 2⟩ ⟨1, 5, .fin 2⟩ 2 3 = .fin 2 ∧
    colorAt ⟨2, 2, .fin 1⟩ ⟨6, 2, .fin 1⟩ ⟨2, 6, .fin 1⟩ ⟨1, 0, 0⟩ ⟨1, 0, 0⟩
      ⟨1, 0, 0⟩ 2 3 = (.fin 1, .fin 0, .fin 0) ∧
    (renderObjectM 8 8
        [⟨2, 2, .fin 1⟩, ⟨6, 2, .fin 1⟩, ⟨2, 6, .fin 1⟩,
         ⟨1, 1, .fin 2⟩, ⟨5, 1, .fin 2⟩, ⟨1, 5, .fin 2⟩]
        [⟨1, 0, 0⟩, ⟨1, 0, 0⟩, ⟨1, 0, 0⟩, ⟨0, 1, 0⟩, ⟨0, 1, 0⟩, ⟨0, 1, 0⟩]
        [(0, 1, 2), (3, 4, 5)]).map
      (fun px => compositeFrame 8 8 px 2 3) ≠
      some (.fin 1, .fin 0, .fin 0) := by
  set_option maxRecDepth 10000 in with_unfolding_all decide
